import Mathlib

/-!
# Winder firmware: serial receive buffer, stepper driver and stepper motor

A shallow embedding of the Arduino `Winder` sketch
(`SerialCom.cpp`, `StepperDriver.cpp`, `StepperMotor.cpp`) and the theorems
that settle the claims made about it.

Conventions of the embedding.

* `int` cursors and counters are `Int`; the values the code gives them stay
  far below the 16-bit limit, so no wrap is modelled for them.
* A `char` is represented by its 8-bit pattern, a natural number below 256;
  the cast `(char)x` of an `int` is reduction modulo 256.
* `unsigned long` is 32 bits wide, `int` and `unsigned int` are 16 bits wide
  (the AVR boards the sketch is written for); conversions between them are
  written out with explicit `%`.
* A `double` is a rational number. `adaptSpeed` and `moveSteps` compute in
  exact arithmetic; `adaptSpeedFl` and `moveStepsFl` round the result of every
  `double` operation with a rounding function `fl`, and are the exact ones
  when `fl` is the identity.
* An operation that accesses `readBuffer` outside `0..31`, divides by zero,
  converts an out-of-range `double` to an integer, or runs out of loop fuel
  has no result (`none`).
-/

/-! ## Serial transport (`HardwareSerial`) -/

/-- The part of Arduino's `HardwareSerial` that `SerialCom` calls, as a state
machine over an arbitrary transport state `σ`: `available()` observes the
state, `read()` returns an `int` and moves to a new state, and `delay` is what
the 3 ms pause of `receiveData` does to the transport (bytes may arrive
meanwhile). -/
structure HardwareSerial (σ : Type) where
  available : σ → Int
  read : σ → Int × σ
  delay : σ → σ

/-- A transport that holds a finite list of pending bytes and receives nothing
further: `available()` is the number of pending bytes, `read()` removes the
first one (and returns `-1` when there is none), and time passing changes
nothing. -/
def pendingSerial : HardwareSerial (List Nat) where
  available := fun t => (t.length : Int)
  read := fun t =>
    match t with
    | [] => (-1, [])
    | b :: rest => ((b : Int), rest)
  delay := fun t => t

/-! ## `SerialCom` -/

/-- The cast `(char)x` of an `int`, as an 8-bit pattern. -/
def toChar (x : Int) : Nat := (x % 256).toNat

/-- The attributes of `SerialCom` (`SerialCom.h`), together with the state of
the transport its `serial` reference points to. -/
structure SerialCom (σ : Type) where
  serial : σ
  readBuffer : Fin 32 → Nat
  bufferReadIndex : Int
  bufferLastIndex : Int

namespace SerialCom

variable {σ : Type}

/-- The member `const int bufferSize = 32`. -/
def bufferSize : Int := 32

/-- The read access `readBuffer[i]`; no result outside the array. -/
def readAt (buf : Fin 32 → Nat) (i : Int) : Option Nat :=
  if h : 0 ≤ i ∧ i < 32 then some (buf ⟨i.toNat, by omega⟩) else none

/-- The write access `readBuffer[i] = v`; no result outside the array. -/
def writeAt (buf : Fin 32 → Nat) (i : Int) (v : Nat) : Option (Fin 32 → Nat) :=
  if h : 0 ≤ i ∧ i < 32 then some (Function.update buf ⟨i.toNat, by omega⟩ v) else none

/-- The constructor `SerialCom::SerialCom`: both cursors are set to 0; the
contents of `readBuffer` are whatever the memory held. -/
def init (serial : σ) (readBuffer : Fin 32 → Nat) : SerialCom σ :=
  { serial := serial, readBuffer := readBuffer, bufferReadIndex := 0, bufferLastIndex := 0 }

/-- The `while` loop of `SerialCom::receiveData`, one iteration per unit of
fuel. -/
def receiveDataLoop (hw : HardwareSerial σ) : Nat → SerialCom σ → Option (SerialCom σ)
  | 0, _ => none
  | fuel + 1, st =>
    if hw.available st.serial > 0 ∧ st.bufferLastIndex < bufferSize then
      match writeAt st.readBuffer st.bufferLastIndex (toChar (hw.read st.serial).1) with
      | none => none
      | some buf =>
        receiveDataLoop hw fuel
          { st with
            serial := hw.delay (hw.read st.serial).2
            readBuffer := buf
            bufferLastIndex := st.bufferLastIndex + 1 }
    else some st

/-- `SerialCom::receiveData`. Every iteration increases `bufferLastIndex`, so
`bufferSize - bufferLastIndex` iterations and the final test are all the loop
can make. -/
def receiveData (hw : HardwareSerial σ) (st : SerialCom σ) : Option (SerialCom σ) :=
  receiveDataLoop hw ((bufferSize - st.bufferLastIndex).toNat + 1) st

/-- `SerialCom::hasNext`. -/
def hasNext (hw : HardwareSerial σ) (st : SerialCom σ) : Option (Bool × SerialCom σ) :=
  match (if st.bufferLastIndex = 0 then receiveData hw st else some st) with
  | none => none
  | some st1 => some (decide (st1.bufferReadIndex < st1.bufferLastIndex), st1)

/-- `SerialCom::getNext`. -/
def getNext (hw : HardwareSerial σ) (st : SerialCom σ) : Option (Nat × SerialCom σ) :=
  match hasNext hw st with
  | none => none
  | some (false, st1) => some (0, st1)
  | some (true, st1) =>
    match readAt st1.readBuffer st1.bufferReadIndex with
    | none => none
    | some value =>
      let st2 := { st1 with bufferReadIndex := st1.bufferReadIndex + 1 }
      if st2.bufferReadIndex = st2.bufferLastIndex then
        some (value, { st2 with bufferReadIndex := 0, bufferLastIndex := 0 })
      else some (value, st2)

/-- The caller's loop `while (hasNext()) { getNext(); }`, one iteration per
unit of fuel; the result lists the values the `getNext` calls returned, in
call order, and the state in which `hasNext` answered `false`. -/
def pollLoop (hw : HardwareSerial σ) : Nat → SerialCom σ → Option (List Nat × SerialCom σ)
  | 0, _ => none
  | fuel + 1, st =>
    match hasNext hw st with
    | none => none
    | some (false, st1) => some ([], st1)
    | some (true, st1) =>
      match getNext hw st1 with
      | none => none
      | some (v, st2) =>
        match pollLoop hw fuel st2 with
        | none => none
        | some (vs, st3) => some (v :: vs, st3)

/-- The states a `SerialCom` object can be in between calls: the constructor's
result, the state after a `hasNext()` or `getNext()` call, and any of these
after the transport has changed in whatever way. -/
inductive Reachable (hw : HardwareSerial σ) : SerialCom σ → Prop
  | constructed (serial : σ) (readBuffer : Fin 32 → Nat) : Reachable hw (init serial readBuffer)
  | afterHasNext {st st1 : SerialCom σ} {b : Bool} :
      Reachable hw st → hasNext hw st = some (b, st1) → Reachable hw st1
  | afterGetNext {st st1 : SerialCom σ} {v : Nat} :
      Reachable hw st → getNext hw st = some (v, st1) → Reachable hw st1
  | transport {st : SerialCom σ} (serial : σ) :
      Reachable hw st → Reachable hw { st with serial := serial }

/-- The bytes the buffer holds from cell `r` on, `k` of them. -/
def cells (buf : Fin 32 → Nat) : Nat → Nat → List Nat
  | _, 0 => []
  | r, k + 1 => (if h : r < 32 then buf ⟨r, h⟩ else 0) :: cells buf (r + 1) k

/-- The undelivered bytes of the buffer, oldest first:
`readBuffer[bufferReadIndex .. bufferLastIndex - 1]`. -/
def undelivered (st : SerialCom σ) : List Nat :=
  cells st.readBuffer st.bufferReadIndex.toNat (st.bufferLastIndex - st.bufferReadIndex).toNat

/-- The cursor invariant of the receive buffer. -/
def Inv (st : SerialCom σ) : Prop :=
  0 ≤ st.bufferReadIndex ∧ st.bufferReadIndex ≤ st.bufferLastIndex ∧
    st.bufferLastIndex ≤ 32 ∧ (st.bufferReadIndex = st.bufferLastIndex → st.bufferLastIndex = 0)

/-- Removal of the oldest buffered byte, in the words of the contract of
`getNext`: the byte under the read cursor is the value, the read cursor moves
on by one, and both cursors go back to 0 when the buffer is empty then. -/
def removeOldest (st : SerialCom σ) : Option (Nat × SerialCom σ) :=
  match readAt st.readBuffer st.bufferReadIndex with
  | none => none
  | some value =>
    if st.bufferReadIndex + 1 = st.bufferLastIndex then
      some (value, { st with bufferReadIndex := 0, bufferLastIndex := 0 })
    else some (value, { st with bufferReadIndex := st.bufferReadIndex + 1 })

/-- The contract of `getNext` as the specification words it:
`if hasNext() then remove-oldest else 0`. -/
def getNextSpec (hw : HardwareSerial σ) (st : SerialCom σ) : Option (Nat × SerialCom σ) :=
  match hasNext hw st with
  | none => none
  | some (true, st1) => removeOldest st1
  | some (false, st1) => some (0, st1)

end SerialCom

/-! ## The board: pins and the microsecond clock -/

/-- The two levels of a digital output. -/
inductive Level
  | LOW
  | HIGH
  deriving DecidableEq, Repr

/-- The calls the sketch makes to the Arduino core that act on the outside
world: `pinMode(pin, OUTPUT)`, `digitalWrite(pin, level)` and
`delayMicroseconds(us)` with `us` the value its `unsigned int` parameter
receives. -/
inductive Event
  | pinModeOutput (pin : Int)
  | digitalWrite (pin : Int) (level : Level)
  | delayMicroseconds (us : Nat)
  deriving DecidableEq, Repr

/-- The board as the sketch sees it: the calls made so far, oldest first, and
the number of `micros()` calls made so far. -/
structure Board where
  trace : List Event
  reads : Nat
  deriving DecidableEq, Repr

/-- Record one call. -/
def Board.emit (b : Board) (e : Event) : Board :=
  { b with trace := b.trace ++ [e] }

/-- The number of times `pin` has been written HIGH so far: for the pulse pin,
the number of step pulses. -/
def Board.pulses (pin : Int) (b : Board) : Nat :=
  b.trace.count (Event.digitalWrite pin Level.HIGH)

/-- The level of the last `digitalWrite` to `pin` in a trace, if there is one. -/
def lastWrite (pin : Int) (trace : List Event) : Option Level :=
  trace.foldl
    (fun acc e =>
      match e with
      | Event.digitalWrite p l => if p = pin then some l else acc
      | _ => acc)
    none

/-- Conversion of an integer to `unsigned long` (32 bits). -/
def toULong (x : Int) : Nat := (x % 4294967296).toNat

/-- Conversion of an integer to `unsigned int` (16 bits). -/
def toUInt (x : Int) : Nat := (x % 65536).toNat

/-- Conversion of an `unsigned long` to `int` (16 bits, two's complement). -/
def toInt (x : Nat) : Int := ((x + 32768) % 65536 : Nat) - 32768

/-- Arduino's macro `max(a,b)`, `((a)>(b)?(a):(b))`, at type `unsigned long`,
for an operand `a` whose evaluation acts on a state (it reads the clock) and a
constant `b`: the text of `a` stands twice in the expansion, so `a` is
evaluated for the comparison and, when it is the greater, once more for the
value. -/
def arduinoMax {σ : Type} (a : σ → Nat × σ) (b : Nat) (s : σ) : Nat × σ :=
  if (a s).1 > b then a (a s).2 else (b, (a s).2)

/-- Arduino's macro `abs(x)`, `((x)>0?(x):-(x))`. -/
def arduinoAbs (x : ℚ) : ℚ := if x > 0 then x else -x

/-- Conversion of a `double` to `unsigned long`: the fraction is dropped; no
result when the whole part is not an `unsigned long`. -/
def truncToULong (x : ℚ) : Option Nat :=
  let t : Int := if 0 ≤ x then ⌊x⌋ else ⌈x⌉
  if 0 ≤ t ∧ t < 4294967296 then some t.toNat else none

/-! ## Rounding of `double` arithmetic

A `double` is a rational number, and the result of a `double` operation is the
exact result rounded to the format. The rounding is a parameter `fl : ℚ → ℚ`
of the rounded model below; `roundTo p` is round-to-nearest with `p`
significant bits and the identity is exact arithmetic. Overflow, underflow
and NaN are not modelled. -/

/-- The integer nearest to `y`; of two equally near ones the even one. -/
def roundNearestEven (y : ℚ) : Int :=
  if y - ⌊y⌋ < 1 / 2 then ⌊y⌋
  else if 1 / 2 < y - ⌊y⌋ then ⌊y⌋ + 1
  else if ⌊y⌋ % 2 = 0 then ⌊y⌋ else ⌊y⌋ + 1

/-- Rounding to the nearest binary floating-point number with `p ≥ 1`
significant bits, ties to even, with unbounded exponent: `p = 24` is IEEE 754
binary32 (the `double` of the AVR boards), `p = 53` is binary64. -/
def roundTo (p : Nat) (x : ℚ) : ℚ :=
  if x = 0 then 0
  else
    (roundNearestEven (x * 2 ^ (p - 1) / 2 ^ Int.log 2 |x|) : ℚ) * 2 ^ Int.log 2 |x| /
      2 ^ (p - 1)

/-- What the start-up trace needs of the rounding `fl`: for magnitudes between
`2^-10` and `2^10` the rounded value is within one part in `2^24` of the exact
one, as it is for round-to-nearest with at least 24 significant bits. -/
def Accurate (fl : ℚ → ℚ) : Prop :=
  ∀ x : ℚ, 1 / 1024 ≤ |x| → |x| ≤ 1024 → |fl x - x| ≤ |x| / 16777216

/-! ## `StepperDriver` -/

/-- The enumeration `MotorDirection` (`StepperDriver.h`). -/
inductive MotorDirection
  | CLOCKWISE
  | COUNTER_CLOCKWISE
  deriving DecidableEq, Repr

/-- The attributes of `StepperDriver`. -/
structure StepperDriver where
  ENABLE_PIN : Int
  DIR_PIN : Int
  PULSE_PIN : Int
  deriving DecidableEq, Repr

namespace StepperDriver

/-- `StepperDriver::setEnabled`. -/
def setEnabled (d : StepperDriver) (isEnabled : Bool) (b : Board) : Board :=
  b.emit (Event.digitalWrite d.ENABLE_PIN (if isEnabled then Level.LOW else Level.HIGH))

/-- `StepperDriver::setDirection`. -/
def setDirection (d : StepperDriver) (dir : MotorDirection) (b : Board) : Board :=
  b.emit (Event.digitalWrite d.DIR_PIN
    (if dir = MotorDirection.CLOCKWISE then Level.HIGH else Level.LOW))

/-- The constructor `StepperDriver::StepperDriver`. -/
def init (enablePin dirPin pulsePin : Int) (b : Board) : StepperDriver × Board :=
  let d : StepperDriver := { ENABLE_PIN := enablePin, DIR_PIN := dirPin, PULSE_PIN := pulsePin }
  let b1 := b.emit (Event.pinModeOutput d.DIR_PIN)
  let b2 := b1.emit (Event.pinModeOutput d.PULSE_PIN)
  let b3 := setDirection d MotorDirection.CLOCKWISE b2
  let b4 := b3.emit (Event.digitalWrite d.PULSE_PIN Level.LOW)
  let b5 := b4.emit (Event.pinModeOutput d.ENABLE_PIN)
  (d, setEnabled d false b5)

/-- The operand `stopTimeMicros - micros()` of the `max` in `moveStep`: its
`unsigned long` value when `reads` clock reads have been made, and the number
of clock reads after it. -/
def remainingMicros (clock : Nat → Nat) (stopTimeMicros : Nat) (reads : Nat) : Nat × Nat :=
  (toULong ((stopTimeMicros : Int) - (toULong (clock reads) : Int)), reads + 1)

/-- `StepperDriver::moveStep`. The value the `k`-th call of `micros()` returns
is `clock k`, as an `unsigned long`. The call reads the clock on entry and,
after the pulse pin is set LOW, once for the comparison inside `max` and, when
the difference is not 0, once more for the value that is waited. -/
def moveStep (clock : Nat → Nat) (d : StepperDriver) (durationMicros : Int) (b : Board) : Board :=
  let stopTimeMicros : Nat := toULong ((toULong (clock b.reads) : Int) + durationMicros)
  let b1 := b.emit (Event.digitalWrite d.PULSE_PIN Level.HIGH)
  let b2 := b1.emit (Event.delayMicroseconds (toUInt (Int.tdiv durationMicros 2)))
  let b3 := b2.emit (Event.digitalWrite d.PULSE_PIN Level.LOW)
  let r := arduinoMax (remainingMicros clock stopTimeMicros) 0 (b.reads + 1)
  let b4 := b3.emit (Event.delayMicroseconds (toUInt r.1))
  { b4 with reads := r.2 }

end StepperDriver

/-! ## `StepperMotor` -/

/-- The attributes of `StepperMotor` (`StepperMotor.h`). -/
structure StepperMotor where
  driver : StepperDriver
  isEnabled : Bool
  STEPS_PER_REV : Int
  speedRevsPerSec : ℚ
  targetSpeedRevsPerSec : ℚ
  deriving DecidableEq

namespace StepperMotor

/-- The constructor `StepperMotor::StepperMotor`, with the default member
initialisers of `StepperMotor.h`. -/
def init (enablePin dirPin pulsePin stepsPerRevolution : Int) (b : Board) :
    StepperMotor × Board :=
  let r := StepperDriver.init enablePin dirPin pulsePin b
  ({ driver := r.1, isEnabled := false, STEPS_PER_REV := stepsPerRevolution,
     speedRevsPerSec := 0, targetSpeedRevsPerSec := 0 }, r.2)

/-- `StepperMotor::getEnabled`. -/
def getEnabled (m : StepperMotor) : Bool := m.isEnabled

/-- `StepperMotor::setEnabled`. -/
def setEnabled (m : StepperMotor) (isEnabled : Bool) (b : Board) : StepperMotor × Board :=
  ({ m with isEnabled := isEnabled }, m.driver.setEnabled isEnabled b)

/-- `StepperMotor::setDirection`. -/
def setDirection (m : StepperMotor) (dir : MotorDirection) (b : Board) : StepperMotor × Board :=
  (m, m.driver.setDirection dir b)

/-- `StepperMotor::setTargetSpeed`. -/
def setTargetSpeed (m : StepperMotor) (targetRevsPerSec : ℚ) : StepperMotor :=
  { m with targetSpeedRevsPerSec := targetRevsPerSec }

/-- `StepperMotor::adaptSpeed` in exact arithmetic (`adaptSpeedFl` below with
no rounding). -/
def adaptSpeed (m : StepperMotor) : StepperMotor :=
  let deltaSpeed := m.targetSpeedRevsPerSec - m.speedRevsPerSec
  if arduinoAbs deltaSpeed < 1 / 4 then
    { m with speedRevsPerSec := m.targetSpeedRevsPerSec }
  else
    { m with speedRevsPerSec := m.speedRevsPerSec + deltaSpeed / 5 }

/-- The `for` loop of `StepperMotor::moveSteps`, one test of `i < numberSteps`
per unit of fuel. -/
def moveStepsLoop (clock : Nat → Nat) (d : StepperDriver) (durationMicros : Int)
    (numberSteps : Int) : Nat → Int → Board → Option Board
  | 0, _, _ => none
  | fuel + 1, i, b =>
    if i < numberSteps then
      moveStepsLoop clock d durationMicros numberSteps fuel (i + 1)
        (d.moveStep clock durationMicros b)
    else some b

/-- `StepperMotor::moveSteps` in exact arithmetic (`moveStepsFl` below with no
rounding): the value returned, the motor and the board after the call. The
loop makes at most `numberSteps` iterations, so `numberSteps + 1` tests of its
condition are all it can make. -/
def moveSteps (clock : Nat → Nat) (numberSteps : Int) (m : StepperMotor) (b : Board) :
    Option (Int × StepperMotor × Board) :=
  let m1 := adaptSpeed m
  if m1.speedRevsPerSec > 1 / 2 then
    match truncToULong (m1.speedRevsPerSec * m1.STEPS_PER_REV) with
    | none => none
    | some stepsPerSec =>
      if stepsPerSec = 0 then none
      else
        let durationMicros : Nat := 1000000 / stepsPerSec
        match moveStepsLoop clock m1.driver (toInt durationMicros) numberSteps
            (numberSteps.toNat + 1) 0 b with
        | none => none
        | some b1 => some (numberSteps, m1, b1)
  else some (0, m1, b)

/-- `StepperMotor::adaptSpeed` with every `double` operation rounded by `fl`:
the subtraction, the division by 5 and the addition. The comparison with 0.25
and `abs` are exact. -/
def adaptSpeedFl (fl : ℚ → ℚ) (m : StepperMotor) : StepperMotor :=
  let deltaSpeed := fl (m.targetSpeedRevsPerSec - m.speedRevsPerSec)
  if arduinoAbs deltaSpeed < 1 / 4 then
    { m with speedRevsPerSec := m.targetSpeedRevsPerSec }
  else
    { m with speedRevsPerSec := fl (m.speedRevsPerSec + fl (deltaSpeed / 5)) }

/-- `StepperMotor::moveSteps` with every `double` operation rounded by `fl`:
the ramp tick is `adaptSpeedFl fl` and the product
`speedRevsPerSec * STEPS_PER_REV` is rounded before its fraction is dropped.
The conversion of the 16-bit `int` `STEPS_PER_REV` to `double` is exact. -/
def moveStepsFl (fl : ℚ → ℚ) (clock : Nat → Nat) (numberSteps : Int) (m : StepperMotor)
    (b : Board) : Option (Int × StepperMotor × Board) :=
  let m1 := adaptSpeedFl fl m
  if m1.speedRevsPerSec > 1 / 2 then
    match truncToULong (fl (m1.speedRevsPerSec * m1.STEPS_PER_REV)) with
    | none => none
    | some stepsPerSec =>
      if stepsPerSec = 0 then none
      else
        let durationMicros : Nat := 1000000 / stepsPerSec
        match moveStepsLoop clock m1.driver (toInt durationMicros) numberSteps
            (numberSteps.toNat + 1) 0 b with
        | none => none
        | some b1 => some (numberSteps, m1, b1)
  else some (0, m1, b)

/-- A sequence of `moveSteps` calls, one per entry of the list, each with the
entry as its `numberSteps`: the values returned, in call order, and the motor
and the board after the last call. -/
def moveStepsSeq (clock : Nat → Nat) :
    List Int → StepperMotor → Board → Option (List Int × StepperMotor × Board)
  | [], m, b => some ([], m, b)
  | n :: ns, m, b =>
    match moveSteps clock n m b with
    | none => none
    | some (r, m1, b1) =>
      match moveStepsSeq clock ns m1 b1 with
      | none => none
      | some (rs, m2, b2) => some (r :: rs, m2, b2)

/-- The motor and board states reachable from the constructor by `setEnabled`,
`setDirection`, `setTargetSpeed` and `moveSteps` calls. -/
inductive Reachable (clock : Nat → Nat) : StepperMotor → Board → Prop
  | constructed (enablePin dirPin pulsePin stepsPerRevolution : Int) (b : Board) :
      Reachable clock (init enablePin dirPin pulsePin stepsPerRevolution b).1
        (init enablePin dirPin pulsePin stepsPerRevolution b).2
  | afterSetEnabled {m : StepperMotor} {b : Board} (isEnabled : Bool) :
      Reachable clock m b →
      Reachable clock (setEnabled m isEnabled b).1 (setEnabled m isEnabled b).2
  | afterSetDirection {m : StepperMotor} {b : Board} (dir : MotorDirection) :
      Reachable clock m b →
      Reachable clock (setDirection m dir b).1 (setDirection m dir b).2
  | afterSetTargetSpeed {m : StepperMotor} {b : Board} (targetRevsPerSec : ℚ) :
      Reachable clock m b → Reachable clock (setTargetSpeed m targetRevsPerSec) b
  | afterMoveSteps {m m1 : StepperMotor} {b b1 : Board} {numberSteps r : Int} :
      Reachable clock m b → moveSteps clock numberSteps m b = some (r, m1, b1) →
      Reachable clock m1 b1

/-- A motor on pins 2, 3 and 4, disabled, with the given steps per revolution,
current speed and target speed (used for concrete instances). -/
def motorAt (stepsPerRevolution : Int) (speed target : ℚ) : StepperMotor :=
  { driver := { ENABLE_PIN := 2, DIR_PIN := 3, PULSE_PIN := 4 }
    isEnabled := false
    STEPS_PER_REV := stepsPerRevolution
    speedRevsPerSec := speed
    targetSpeedRevsPerSec := target }

end StepperMotor

/-! ## Lemmas and theorems: `SerialCom` -/

namespace SerialCom

variable {σ : Type}

/-- What one run of the drain loop does, for any transport: with fuel for the
remaining capacity it ends, it leaves the read cursor alone, only moves the
fill cursor up (never past 32), keeps every cell below the old fill cursor,
stops only when the transport is empty or the buffer full, and is the
identity when it reads nothing. -/
theorem receiveDataLoop_spec (hw : HardwareSerial σ) :
    ∀ (fuel : Nat) (st : SerialCom σ), 0 ≤ st.bufferLastIndex →
      (32 - st.bufferLastIndex).toNat < fuel →
      ∃ st1, receiveDataLoop hw fuel st = some st1 ∧
        st1.bufferReadIndex = st.bufferReadIndex ∧
        st.bufferLastIndex ≤ st1.bufferLastIndex ∧
        (st.bufferLastIndex ≤ 32 → st1.bufferLastIndex ≤ 32) ∧
        (∀ i : Fin 32, (i.val : Int) < st.bufferLastIndex → st1.readBuffer i = st.readBuffer i) ∧
        ¬ (hw.available st1.serial > 0 ∧ st1.bufferLastIndex < bufferSize) ∧
        (st1.bufferLastIndex = st.bufferLastIndex → st1 = st) ∧
        (hw.available st.serial > 0 → st.bufferLastIndex < 32 →
          st.bufferLastIndex < st1.bufferLastIndex) ∧
        (∀ i : Fin 32, st1.bufferLastIndex ≤ (i.val : Int) → st1.readBuffer i = st.readBuffer i) := by
  intro fuel
  induction fuel with
  | zero => intro st _ h; omega
  | succ n ih =>
    intro st h0 hf
    unfold receiveDataLoop
    by_cases hc : hw.available st.serial > 0 ∧ st.bufferLastIndex < bufferSize
    · have hlt : st.bufferLastIndex < 32 := hc.2
      have hw1 : writeAt st.readBuffer st.bufferLastIndex (toChar (hw.read st.serial).1) =
          some (Function.update st.readBuffer ⟨st.bufferLastIndex.toNat, by omega⟩
            (toChar (hw.read st.serial).1)) := by
        unfold writeAt
        rw [dif_pos ⟨h0, hlt⟩]
      rw [if_pos hc, hw1]
      obtain ⟨st1, h1, h2, h3, h4, h5, h6, -, -, h9⟩ := ih
        { st with
          serial := hw.delay (hw.read st.serial).2
          readBuffer := Function.update st.readBuffer ⟨st.bufferLastIndex.toNat, by omega⟩
            (toChar (hw.read st.serial).1)
          bufferLastIndex := st.bufferLastIndex + 1 }
        (by show (0 : Int) ≤ st.bufferLastIndex + 1; omega)
        (by show (32 - (st.bufferLastIndex + 1)).toNat < n; omega)
      refine ⟨st1, h1, h2, ?_, ?_, ?_, h6, ?_, ?_, ?_⟩
      · have : st.bufferLastIndex + 1 ≤ st1.bufferLastIndex := h3
        omega
      · intro _
        exact h4 (by show st.bufferLastIndex + 1 ≤ 32; omega)
      · intro i hi
        rw [h5 i (by show (i.val : Int) < st.bufferLastIndex + 1; omega)]
        show Function.update st.readBuffer _ _ i = _
        rw [Function.update_noteq]
        intro hEq
        have : i.val = st.bufferLastIndex.toNat := congrArg Fin.val hEq
        omega
      · intro hEq
        have : st.bufferLastIndex + 1 ≤ st1.bufferLastIndex := h3
        omega
      · intro _ _
        have : st.bufferLastIndex + 1 ≤ st1.bufferLastIndex := h3
        omega
      · intro i hi
        have h3a : st.bufferLastIndex + 1 ≤ st1.bufferLastIndex := h3
        rw [h9 i hi]
        show Function.update st.readBuffer _ _ i = _
        rw [Function.update_noteq]
        intro hEq
        have : i.val = st.bufferLastIndex.toNat := congrArg Fin.val hEq
        omega
    · rw [if_neg hc]
      refine ⟨st, rfl, rfl, le_refl _, fun h => h, fun _ _ => rfl, hc, fun _ => rfl, ?_,
        fun _ _ => rfl⟩
      intro ha hl
      exact absurd ⟨ha, hl⟩ hc

/-- The drain loop on a transport with the pending bytes `t` and no arrivals:
it appends the first `32 - bufferLastIndex` bytes of `t` to the buffer, in
order, and leaves the rest of `t` in the transport. -/
theorem receiveDataLoop_pending :
    ∀ (t : List Nat) (fuel : Nat) (st : SerialCom (List Nat)), st.serial = t →
      0 ≤ st.bufferLastIndex → st.bufferLastIndex ≤ 32 →
      (32 - st.bufferLastIndex).toNat < fuel →
      ∃ st1, receiveDataLoop pendingSerial fuel st = some st1 ∧
        st1.bufferLastIndex = st.bufferLastIndex + min t.length (32 - st.bufferLastIndex).toNat ∧
        st1.serial = t.drop (32 - st.bufferLastIndex).toNat ∧
        cells st1.readBuffer st.bufferLastIndex.toNat (min t.length (32 - st.bufferLastIndex).toNat)
          = (t.take (32 - st.bufferLastIndex).toNat).map (fun b : Nat => toChar b) := by
  intro t
  induction t with
  | nil =>
    intro fuel st hs h0 h32 hf
    obtain ⟨n, rfl⟩ : ∃ n, fuel = n + 1 := ⟨fuel - 1, by omega⟩
    refine ⟨st, ?_, ?_, ?_, ?_⟩
    · unfold receiveDataLoop
      rw [if_neg]
      rw [hs]
      simp [pendingSerial]
    · simp
    · simp [hs]
    · simp [cells]
  | cons b t ih =>
    intro fuel st hs h0 h32 hf
    obtain ⟨n, rfl⟩ : ∃ n, fuel = n + 1 := ⟨fuel - 1, by omega⟩
    by_cases hl : st.bufferLastIndex < 32
    · have hc : pendingSerial.available st.serial > 0 ∧ st.bufferLastIndex < bufferSize := by
        refine ⟨?_, hl⟩
        rw [hs]
        simp only [pendingSerial, List.length_cons]
        omega
      have hw1 : writeAt st.readBuffer st.bufferLastIndex (toChar (pendingSerial.read st.serial).1) =
          some (Function.update st.readBuffer ⟨st.bufferLastIndex.toNat, by omega⟩ (toChar b)) := by
        unfold writeAt
        rw [dif_pos ⟨h0, hl⟩, hs]
        rfl
      have hrd : pendingSerial.delay (pendingSerial.read st.serial).2 = t := by
        rw [hs]
        rfl
      unfold receiveDataLoop
      rw [if_pos hc, hw1, hrd]
      obtain ⟨st1, h1, h2, h3, h4⟩ := ih n
        { st with
          serial := t
          readBuffer := Function.update st.readBuffer ⟨st.bufferLastIndex.toNat, by omega⟩ (toChar b)
          bufferLastIndex := st.bufferLastIndex + 1 }
        rfl (by show (0 : Int) ≤ st.bufferLastIndex + 1; omega)
        (by show st.bufferLastIndex + 1 ≤ 32; omega)
        (by show (32 - (st.bufferLastIndex + 1)).toNat < n; omega)
      obtain ⟨st1', h1', -, -, -, hkeep, -⟩ := receiveDataLoop_spec pendingSerial n
        { st with
          serial := t
          readBuffer := Function.update st.readBuffer ⟨st.bufferLastIndex.toNat, by omega⟩ (toChar b)
          bufferLastIndex := st.bufferLastIndex + 1 }
        (by show (0 : Int) ≤ st.bufferLastIndex + 1; omega)
        (by show (32 - (st.bufferLastIndex + 1)).toNat < n; omega)
      have hst : st1' = st1 := Option.some.inj (h1'.symm.trans h1)
      subst hst
      dsimp only at h2 h3 h4 hkeep
      clear h1' ih hw1 hrd hc
      obtain ⟨m, hm⟩ : ∃ m, (32 - st.bufferLastIndex).toNat = m + 1 :=
        ⟨(32 - st.bufferLastIndex).toNat - 1, by omega⟩
      have hm1 : (32 - (st.bufferLastIndex + 1)).toNat = m := by omega
      have hnat : (st.bufferLastIndex + 1).toNat = st.bufferLastIndex.toNat + 1 := by omega
      rw [hm1] at h2 h3 h4
      rw [hnat] at h4
      refine ⟨st1', h1, ?_, ?_, ?_⟩
      · rw [h2, hm, List.length_cons]
        omega
      · rw [h3, hm, List.drop_succ_cons]
      · rw [hm, List.length_cons, Nat.succ_min_succ, List.take_succ_cons, List.map_cons]
        show (if h : st.bufferLastIndex.toNat < 32 then st1'.readBuffer ⟨_, h⟩ else 0) ::
          cells st1'.readBuffer (st.bufferLastIndex.toNat + 1) (min t.length m) = _
        rw [h4, dif_pos (by omega : st.bufferLastIndex.toNat < 32)]
        congr 1
        rw [hkeep ⟨st.bufferLastIndex.toNat, by omega⟩
          (by show ((st.bufferLastIndex.toNat : Nat) : Int) < st.bufferLastIndex + 1; omega)]
        show Function.update st.readBuffer _ _ _ = _
        rw [Function.update_same]
    · have hl32 : st.bufferLastIndex = 32 := by omega
      refine ⟨st, ?_, ?_, ?_, ?_⟩
      · unfold receiveDataLoop
        rw [if_neg]
        intro hc
        exact hl hc.2
      · rw [hl32]; simp
      · rw [hs, hl32]; simp
      · rw [hl32]; simp [cells]

/-- With bytes in the buffer `hasNext` reads nothing and changes nothing. -/
theorem hasNext_of_ne_zero (hw : HardwareSerial σ) (st : SerialCom σ)
    (h : st.bufferLastIndex ≠ 0) :
    hasNext hw st = some (decide (st.bufferReadIndex < st.bufferLastIndex), st) := by
  unfold hasNext
  rw [if_neg h]

/-- On a state that satisfies the cursor invariant `hasNext` has a result, the
result satisfies the invariant again, and the answer is `true` exactly when a
byte is then buffered. -/
theorem hasNext_spec (hw : HardwareSerial σ) (st : SerialCom σ) (hinv : Inv st) :
    ∃ st1, hasNext hw st = some (decide (st1.bufferReadIndex < st1.bufferLastIndex), st1) ∧
      Inv st1 ∧ (st.bufferLastIndex ≠ 0 → st1 = st) ∧
      (st1.bufferLastIndex = 0 → st1 = st) := by
  obtain ⟨h0, h1, h2, h3⟩ := hinv
  by_cases hl : st.bufferLastIndex = 0
  · obtain ⟨st1, e1, e2, e3, e4, -, -, e7, -⟩ := receiveDataLoop_spec hw
      ((bufferSize - st.bufferLastIndex).toNat + 1) st (by omega)
      (by show (32 - st.bufferLastIndex).toNat < (32 - st.bufferLastIndex).toNat + 1; omega)
    refine ⟨st1, ?_, ?_, fun h => absurd hl h, ?_⟩
    · unfold hasNext receiveData
      rw [if_pos hl, e1]
    · refine ⟨by omega, by omega, e4 h2, ?_⟩
      intro h
      omega
    · intro h
      exact e7 (by omega)
  · refine ⟨st, hasNext_of_ne_zero hw st hl, ⟨h0, h1, h2, h3⟩, fun _ => rfl, fun _ => rfl⟩

/-- On a state with a buffered byte `getNext` returns the cell under the read
cursor and advances the cursor, resetting both cursors when it meets the fill
cursor. -/
theorem getNext_of_nonempty (hw : HardwareSerial σ) (st : SerialCom σ)
    (h0 : 0 ≤ st.bufferReadIndex) (h1 : st.bufferReadIndex < st.bufferLastIndex)
    (h2 : st.bufferLastIndex ≤ 32) :
    getNext hw st =
      some (st.readBuffer ⟨st.bufferReadIndex.toNat, by omega⟩,
        if st.bufferReadIndex + 1 = st.bufferLastIndex then
          { st with bufferReadIndex := 0, bufferLastIndex := 0 }
        else { st with bufferReadIndex := st.bufferReadIndex + 1 }) := by
  have hr : readAt st.readBuffer st.bufferReadIndex =
      some (st.readBuffer ⟨st.bufferReadIndex.toNat, by omega⟩) := by
    unfold readAt
    rw [dif_pos ⟨h0, by omega⟩]
  unfold getNext
  rw [hasNext_of_ne_zero hw st (by omega), decide_eq_true h1]
  simp only [hr]
  by_cases he : st.bufferReadIndex + 1 = st.bufferLastIndex
  · rw [if_pos he, if_pos he]
  · rw [if_neg he, if_neg he]

/-- On a state that satisfies the cursor invariant `getNext` has a result, and
the result satisfies the invariant again. -/
theorem getNext_spec (hw : HardwareSerial σ) (st : SerialCom σ) (hinv : Inv st) :
    ∃ v st1, getNext hw st = some (v, st1) ∧ Inv st1 := by
  obtain ⟨st1, e1, ⟨i0, i1, i2, i3⟩, -, -⟩ := hasNext_spec hw st hinv
  by_cases hb : st1.bufferReadIndex < st1.bufferLastIndex
  · have hr : readAt st1.readBuffer st1.bufferReadIndex =
        some (st1.readBuffer ⟨st1.bufferReadIndex.toNat, by omega⟩) := by
      unfold readAt
      rw [dif_pos ⟨i0, by omega⟩]
    rw [decide_eq_true hb] at e1
    by_cases he : st1.bufferReadIndex + 1 = st1.bufferLastIndex
    · refine ⟨st1.readBuffer ⟨st1.bufferReadIndex.toNat, by omega⟩,
        { st1 with bufferReadIndex := 0, bufferLastIndex := 0 }, ?_, ?_⟩
      · unfold getNext
        rw [e1]
        simp only [hr]
        rw [if_pos he]
      · exact ⟨le_refl _, le_refl _, by show (0 : Int) ≤ 32; decide, fun _ => rfl⟩
    · refine ⟨st1.readBuffer ⟨st1.bufferReadIndex.toNat, by omega⟩,
        { st1 with bufferReadIndex := st1.bufferReadIndex + 1 }, ?_, ?_⟩
      · unfold getNext
        rw [e1]
        simp only [hr]
        rw [if_neg he]
      · refine ⟨?_, ?_, i2, ?_⟩
        · show (0 : Int) ≤ st1.bufferReadIndex + 1
          omega
        · show st1.bufferReadIndex + 1 ≤ st1.bufferLastIndex
          omega
        · intro h
          exact absurd h he
  · rw [decide_eq_false hb] at e1
    refine ⟨0, st1, ?_, i0, i1, i2, i3⟩
    unfold getNext
    rw [e1]

/-- Every reachable state satisfies the cursor invariant. -/
theorem reachable_inv (hw : HardwareSerial σ) (st : SerialCom σ) (h : Reachable hw st) :
    Inv st := by
  induction h with
  | constructed serial buf =>
    exact ⟨le_refl _, le_refl _, by show (0 : Int) ≤ 32; decide, fun _ => rfl⟩
  | afterHasNext _ hstep ih =>
    obtain ⟨st1, e1, hi, -, -⟩ := hasNext_spec hw _ ih
    rw [e1] at hstep
    have := (Prod.mk.inj (Option.some.inj hstep)).2
    rw [← this]
    exact hi
  | afterGetNext _ hstep ih =>
    obtain ⟨v, st1, e1, hi⟩ := getNext_spec hw _ ih
    rw [e1] at hstep
    have := (Prod.mk.inj (Option.some.inj hstep)).2
    rw [← this]
    exact hi
  | transport serial _ ih => exact ih

/-- The number of bytes `cells` lists. -/
theorem length_cells (buf : Fin 32 → Nat) : ∀ (k r : Nat), (cells buf r k).length = k := by
  intro k
  induction k with
  | zero => intro r; rfl
  | succ n ih => intro r; simp [cells, ih]

/-- The cast `(char)` keeps a byte value. -/
theorem toChar_of_lt (b : Nat) (h : b < 256) : toChar (b : Int) = b := by
  unfold toChar
  omega

/-- Casting a list of byte values to `char` keeps the list. -/
theorem map_toChar_of_lt (t : List Nat) (h : ∀ b ∈ t, b < 256) :
    t.map (fun b : Nat => toChar b) = t := by
  induction t with
  | nil => rfl
  | cons b t ih =>
    rw [List.map_cons, toChar_of_lt b (h b (List.mem_cons_self b t)),
      ih (fun c hc => h c (List.mem_cons_of_mem b hc))]

/-- One `hasNext` call on an empty buffer and a transport with the pending
bytes `t`: the first 32 bytes of `t` become the undelivered bytes. -/
theorem hasNext_pending (st : SerialCom (List Nat)) (h : ∀ b ∈ st.serial, b < 256)
    (hr : st.bufferReadIndex = 0) (hl : st.bufferLastIndex = 0) :
    ∃ st1, hasNext pendingSerial st = some (decide (0 < st.serial.length), st1) ∧
      st1.bufferReadIndex = 0 ∧ st1.bufferLastIndex = (min st.serial.length 32 : Nat) ∧
      undelivered st1 = st.serial.take 32 ∧ st1.serial = st.serial.drop 32 ∧
      (∀ i : Fin 32, min st.serial.length 32 ≤ i.val → st1.readBuffer i = st.readBuffer i) := by
  obtain ⟨st1, e1, e2, e3, e4⟩ := receiveDataLoop_pending st.serial
    ((bufferSize - st.bufferLastIndex).toNat + 1) st rfl (by omega) (by omega)
    (by show (32 - st.bufferLastIndex).toNat < (32 - st.bufferLastIndex).toNat + 1; omega)
  obtain ⟨st1', e1', f2, -, -, -, -, -, -, f9⟩ := receiveDataLoop_spec pendingSerial
    ((bufferSize - st.bufferLastIndex).toNat + 1) st (by omega)
    (by show (32 - st.bufferLastIndex).toNat < (32 - st.bufferLastIndex).toNat + 1; omega)
  have hst : st1' = st1 := Option.some.inj (e1'.symm.trans e1)
  subst hst
  have h32 : (32 - st.bufferLastIndex).toNat = 32 := by omega
  have hl0 : st.bufferLastIndex.toNat = 0 := by omega
  rw [h32] at e2 e3 e4
  rw [hl0, map_toChar_of_lt _ (fun b hb => h b (List.mem_of_mem_take hb))] at e4
  have hr1 : st1'.bufferReadIndex = 0 := by omega
  have hl1 : st1'.bufferLastIndex = (min st.serial.length 32 : Nat) := by omega
  refine ⟨st1', ?_, hr1, hl1, ?_, e3, ?_⟩
  · unfold hasNext receiveData
    rw [if_pos hl, e1]
    show some (decide (st1'.bufferReadIndex < st1'.bufferLastIndex), st1') = _
    rw [hr1, hl1]
    by_cases hpos : 0 < st.serial.length
    · rw [decide_eq_true hpos, decide_eq_true]
      omega
    · rw [decide_eq_false hpos, decide_eq_false]
      omega
  · unfold undelivered
    rw [hr1, hl1]
    have hk : ((min st.serial.length 32 : Nat) - (0 : Int)).toNat = min st.serial.length 32 := by
      omega
    rw [hk]
    exact e4
  · intro i hi
    exact f9 i (by omega)

/-- The undelivered bytes of a non-empty buffer are the cell under the read
cursor followed by the undelivered bytes after one `getNext`. -/
theorem undelivered_cons (st : SerialCom σ)
    (h0 : 0 ≤ st.bufferReadIndex) (h1 : st.bufferReadIndex < st.bufferLastIndex)
    (h2 : st.bufferLastIndex ≤ 32) :
    undelivered st = st.readBuffer ⟨st.bufferReadIndex.toNat, by omega⟩ ::
      undelivered (if st.bufferReadIndex + 1 = st.bufferLastIndex then
          { st with bufferReadIndex := 0, bufferLastIndex := 0 }
        else { st with bufferReadIndex := st.bufferReadIndex + 1 }) := by
  obtain ⟨k, hk⟩ : ∃ k, (st.bufferLastIndex - st.bufferReadIndex).toNat = k + 1 :=
    ⟨(st.bufferLastIndex - st.bufferReadIndex).toNat - 1, by omega⟩
  have hlt : st.bufferReadIndex.toNat < 32 := by omega
  by_cases he : st.bufferReadIndex + 1 = st.bufferLastIndex
  · rw [if_pos he]
    have hk0 : k = 0 := by omega
    subst hk0
    unfold undelivered
    rw [hk]
    show (if h : st.bufferReadIndex.toNat < 32 then st.readBuffer ⟨_, h⟩ else 0) ::
      cells st.readBuffer (st.bufferReadIndex.toNat + 1) 0 = _
    rw [dif_pos hlt]
    rfl
  · rw [if_neg he]
    unfold undelivered
    rw [hk]
    show (if h : st.bufferReadIndex.toNat < 32 then st.readBuffer ⟨_, h⟩ else 0) ::
      cells st.readBuffer (st.bufferReadIndex.toNat + 1) k =
      _ :: cells st.readBuffer (st.bufferReadIndex + 1).toNat
        (st.bufferLastIndex - (st.bufferReadIndex + 1)).toNat
    rw [dif_pos hlt]
    have e1 : (st.bufferReadIndex + 1).toNat = st.bufferReadIndex.toNat + 1 := by omega
    have e2 : (st.bufferLastIndex - (st.bufferReadIndex + 1)).toNat = k := by omega
    rw [e1, e2]

/-- The polling loop on a transport with pending bytes and no arrivals: with
more fuel than bytes it ends, and the values it collects are the undelivered
bytes of the buffer followed by the pending bytes of the transport. -/
theorem pollLoop_pending :
    ∀ (fuel : Nat) (st : SerialCom (List Nat)), Inv st → (∀ b ∈ st.serial, b < 256) →
      (undelivered st).length + st.serial.length < fuel →
      ∃ st1, pollLoop pendingSerial fuel st = some (undelivered st ++ st.serial, st1) ∧
        st1.serial = [] ∧ st1.bufferReadIndex = 0 ∧ st1.bufferLastIndex = 0 := by
  intro fuel
  induction fuel with
  | zero => intro st _ _ h; omega
  | succ f ih =>
    have key : ∀ st : SerialCom (List Nat), Inv st → (∀ b ∈ st.serial, b < 256) →
        (undelivered st).length + st.serial.length < f + 1 → st.bufferLastIndex ≠ 0 →
        ∃ st1, pollLoop pendingSerial (f + 1) st = some (undelivered st ++ st.serial, st1) ∧
          st1.serial = [] ∧ st1.bufferReadIndex = 0 ∧ st1.bufferLastIndex = 0 := by
      intro st hinv hb hlen hne
      obtain ⟨h0, h1, h2, h3⟩ := hinv
      have hlt : st.bufferReadIndex < st.bufferLastIndex := by
        rcases lt_or_eq_of_le h1 with h | h
        · exact h
        · exact absurd (h3 h) hne
      have hcons := undelivered_cons st h0 hlt h2
      have hget := getNext_of_nonempty pendingSerial st h0 hlt h2
      have hinv2 : Inv (if st.bufferReadIndex + 1 = st.bufferLastIndex then
          { st with bufferReadIndex := 0, bufferLastIndex := 0 }
        else { st with bufferReadIndex := st.bufferReadIndex + 1 }) := by
        by_cases he : st.bufferReadIndex + 1 = st.bufferLastIndex
        · rw [if_pos he]
          exact ⟨le_refl _, le_refl _, by show (0 : Int) ≤ 32; decide, fun _ => rfl⟩
        · rw [if_neg he]
          refine ⟨?_, ?_, h2, ?_⟩
          · show (0 : Int) ≤ st.bufferReadIndex + 1
            omega
          · show st.bufferReadIndex + 1 ≤ st.bufferLastIndex
            omega
          · intro h
            exact absurd h he
      have hser : (if st.bufferReadIndex + 1 = st.bufferLastIndex then
          { st with bufferReadIndex := 0, bufferLastIndex := 0 }
        else { st with bufferReadIndex := st.bufferReadIndex + 1 }).serial = st.serial := by
        by_cases he : st.bufferReadIndex + 1 = st.bufferLastIndex
        · rw [if_pos he]
        · rw [if_neg he]
      generalize (if st.bufferReadIndex + 1 = st.bufferLastIndex then
          { st with bufferReadIndex := 0, bufferLastIndex := 0 }
        else { st with bufferReadIndex := st.bufferReadIndex + 1 }) = st2 at hcons hget hinv2 hser
      rw [hcons, List.length_cons] at hlen
      obtain ⟨st3, e1, e2, e3, e4⟩ := ih st2 hinv2 (by rw [hser]; exact hb)
        (by rw [hser]; omega)
      refine ⟨st3, ?_, e2, e3, e4⟩
      unfold pollLoop
      rw [hasNext_of_ne_zero pendingSerial st hne, decide_eq_true hlt]
      simp only [hget, e1]
      rw [hcons, hser, List.cons_append]
    intro st hinv hb hlen
    by_cases hne : st.bufferLastIndex = 0
    · have hr0 : st.bufferReadIndex = 0 := by
        have := hinv.1
        have := hinv.2.1
        omega
      obtain ⟨st1, e1, e2, e3, e4, e5, -⟩ := hasNext_pending st hb hr0 hne
      have hu : undelivered st = [] := by
        unfold undelivered
        rw [hr0, hne]
        rfl
      by_cases hpos : 0 < st.serial.length
      · rw [decide_eq_true hpos] at e1
        have hne1 : st1.bufferLastIndex ≠ 0 := by omega
        have hinv1 : Inv st1 := by
          refine ⟨by omega, by omega, by omega, ?_⟩
          intro h
          omega
        have hlen1 : (undelivered st1).length + st1.serial.length < f + 1 := by
          rw [e4, e5, List.length_take, List.length_drop]
          rw [hu] at hlen
          simp only [List.length_nil] at hlen
          omega
        obtain ⟨st3, g1, g2, g3, g4⟩ := key st1 hinv1
          (by rw [e5]; exact fun b hb1 => hb b (List.mem_of_mem_drop hb1)) hlen1 hne1
        refine ⟨st3, ?_, g2, g3, g4⟩
        have hsame : pollLoop pendingSerial (f + 1) st = pollLoop pendingSerial (f + 1) st1 := by
          have hh1 : hasNext pendingSerial st1 = some (true, st1) := by
            rw [hasNext_of_ne_zero pendingSerial st1 hne1, decide_eq_true]
            omega
          unfold pollLoop
          rw [e1, hh1]
        rw [hsame, g1, e4, e5, hu, List.take_append_drop, List.nil_append]
      · rw [decide_eq_false hpos] at e1
        have hnil : st.serial = [] := List.length_eq_zero.mp (by omega)
        have hst : st1 = st := by
          obtain ⟨st1', f1, -, -, f4⟩ := hasNext_spec pendingSerial st hinv
          rw [e1] at f1
          have := (Prod.mk.inj (Option.some.inj f1)).2
          subst this
          exact f4 (by rw [e3, hnil]; rfl)
        subst hst
        refine ⟨st1, ?_, hnil, hr0, hne⟩
        unfold pollLoop
        rw [e1, hu, hnil]
        rfl
    · exact key st hinv hb hlen hne

/-! ### Claims about `SerialCom` -/

/-- C1 (FIFO delivery). For every list `s` of bytes pending in the transport,
an empty buffer as the constructor leaves it, and no further arrivals, the
loop `while (hasNext()) { getNext(); }` ends (any fuel above `|s|` suffices),
the values its `getNext` calls return are exactly `s` in order, one call per
byte, and it leaves the transport and the buffer empty. -/
theorem C1_fifo_delivery (readBuffer : Fin 32 → Nat) (s : List Nat)
    (hs : ∀ b ∈ s, b < 256) (fuel : Nat) (hfuel : s.length < fuel) :
    ∃ st1, pollLoop pendingSerial fuel (init s readBuffer) = some (s, st1) ∧
      st1.serial = [] ∧ st1.bufferReadIndex = 0 ∧ st1.bufferLastIndex = 0 := by
  have hinv : Inv (init s readBuffer) :=
    ⟨le_refl _, le_refl _, by show (0 : Int) ≤ 32; decide, fun _ => rfl⟩
  have hu : undelivered (init s readBuffer) = [] := rfl
  obtain ⟨st1, e1, e2⟩ := pollLoop_pending fuel (init s readBuffer) hinv hs
    (by rw [hu]; simpa using hfuel)
  rw [hu, List.nil_append] at e1
  exact ⟨st1, e1, e2⟩

/-- C1 at 40 pending bytes (more than one bufferful) and fuel 41. -/
theorem C1_fifo_delivery_witness :
    (∀ b ∈ List.range 40, b < 256) ∧ (List.range 40).length < 41 ∧
      ∃ st1, pollLoop pendingSerial 41 (init (List.range 40) (fun _ => 0)) =
          some (List.range 40, st1) ∧
        st1.serial = [] ∧ st1.bufferReadIndex = 0 ∧ st1.bufferLastIndex = 0 :=
  ⟨by decide, by decide,
    C1_fifo_delivery (fun _ => 0) (List.range 40) (by decide) 41 (by decide)⟩

/-- C2 (buffer cursor invariant). In every state reachable from the
constructor by `hasNext()` and `getNext()` calls, under any transport
behaviour: `0 ≤ bufferReadIndex ≤ bufferLastIndex ≤ 32`; the cursors are equal
only when both are 0; at most 32 bytes are undelivered; `hasNext()` and
`getNext()` have a result, that is, none of their `readBuffer` accesses leaves
the array and the drain loop ends; and `bufferLastIndex == 0` holds exactly
when `bufferReadIndex == bufferLastIndex`. -/
theorem C2_cursor_invariant (hw : HardwareSerial σ) (st : SerialCom σ)
    (h : Reachable hw st) :
    (0 ≤ st.bufferReadIndex ∧ st.bufferReadIndex ≤ st.bufferLastIndex ∧
        st.bufferLastIndex ≤ 32) ∧
      (st.bufferReadIndex = st.bufferLastIndex →
        st.bufferReadIndex = 0 ∧ st.bufferLastIndex = 0) ∧
      (undelivered st).length ≤ 32 ∧
      (hasNext hw st).isSome = true ∧ (getNext hw st).isSome = true ∧
      (st.bufferLastIndex = 0 ↔ st.bufferReadIndex = st.bufferLastIndex) := by
  have hinv := reachable_inv hw st h
  obtain ⟨h0, h1, h2, h3⟩ := hinv
  refine ⟨⟨h0, h1, h2⟩, ?_, ?_, ?_, ?_, ?_⟩
  · intro he
    have := h3 he
    omega
  · unfold undelivered
    rw [length_cells]
    omega
  · obtain ⟨st1, e1, -⟩ := hasNext_spec hw st ⟨h0, h1, h2, h3⟩
    rw [e1]
    rfl
  · obtain ⟨v, st1, e1, -⟩ := getNext_spec hw st ⟨h0, h1, h2, h3⟩
    rw [e1]
    rfl
  · constructor
    · intro hl
      omega
    · exact h3

/-- C2 at the state a `getNext()` call leaves when two bytes were pending. -/
theorem C2_cursor_invariant_witness :
    ∃ st1, getNext pendingSerial (init [65, 66] (fun _ => 0)) = some (65, st1) ∧
      Reachable pendingSerial st1 ∧
      (0 ≤ st1.bufferReadIndex ∧ st1.bufferReadIndex ≤ st1.bufferLastIndex ∧
        st1.bufferLastIndex ≤ 32) ∧
      st1.bufferReadIndex = 1 ∧ st1.bufferLastIndex = 2 :=
  ⟨_, rfl, Reachable.afterGetNext (Reachable.constructed [65, 66] (fun _ => 0)) rfl,
    (C2_cursor_invariant pendingSerial _
      (Reachable.afterGetNext (Reachable.constructed [65, 66] (fun _ => 0)) rfl)).1, rfl, rfl⟩

/-- C3 (drain cap and backpressure). On an empty buffer and a transport with
the pending bytes `t`, one `hasNext()` call answers whether `t` is non-empty,
makes the first `min(|t|, 32)` bytes of `t`, in order, the undelivered bytes
of the buffer (cells `0 .. min(|t|, 32) - 1`), leaves the other cells as they
were, and leaves the remaining bytes of `t` in the transport in order. And for
any transport and any state, `receiveData` changes no cell below
`bufferLastIndex`: no byte already in the buffer is overwritten. -/
theorem C3_drain_cap (readBuffer : Fin 32 → Nat) (t : List Nat) (ht : ∀ b ∈ t, b < 256) :
    (∃ st1, hasNext pendingSerial (init t readBuffer) = some (decide (0 < t.length), st1) ∧
      st1.bufferReadIndex = 0 ∧ st1.bufferLastIndex = (min t.length 32 : Nat) ∧
      undelivered st1 = t.take 32 ∧ st1.serial = t.drop 32 ∧
      (∀ i : Fin 32, min t.length 32 ≤ i.val → st1.readBuffer i = readBuffer i)) ∧
    (∀ (τ : Type) (hw : HardwareSerial τ) (st st1 : SerialCom τ),
      receiveData hw st = some st1 →
      st1.bufferReadIndex = st.bufferReadIndex ∧
      ∀ i : Fin 32, (i.val : Int) < st.bufferLastIndex → st1.readBuffer i = st.readBuffer i) := by
  refine ⟨hasNext_pending (init t readBuffer) ht rfl rfl, ?_⟩
  intro τ hw st st1 hrec
  by_cases h0 : 0 ≤ st.bufferLastIndex
  · obtain ⟨st1', e1, e2, -, -, e5, -⟩ := receiveDataLoop_spec hw
      ((bufferSize - st.bufferLastIndex).toNat + 1) st h0
      (by show (32 - st.bufferLastIndex).toNat < (32 - st.bufferLastIndex).toNat + 1; omega)
    have hst : st1' = st1 := Option.some.inj (e1.symm.trans hrec)
    subst hst
    exact ⟨e2, e5⟩
  · have hwr : ∀ v, writeAt st.readBuffer st.bufferLastIndex v = none := by
      intro v
      unfold writeAt
      rw [dif_neg]
      intro hc
      exact h0 hc.1
    unfold receiveData receiveDataLoop at hrec
    by_cases hc : hw.available st.serial > 0 ∧ st.bufferLastIndex < bufferSize
    · rw [if_pos hc, hwr] at hrec
      exact absurd hrec (by simp)
    · rw [if_neg hc] at hrec
      have hst : st = st1 := Option.some.inj hrec
      subst hst
      exact ⟨rfl, fun _ _ => rfl⟩

/-- C3 at 40 pending bytes: 32 are moved, 8 stay in the transport. -/
theorem C3_drain_cap_witness :
    (∀ b ∈ List.range 40, b < 256) ∧
      ∃ st1, hasNext pendingSerial (init (List.range 40) (fun _ => 0)) = some (true, st1) ∧
        st1.bufferLastIndex = 32 ∧ undelivered st1 = List.range 32 ∧
        st1.serial = [32, 33, 34, 35, 36, 37, 38, 39] := by
  refine ⟨by decide, ?_⟩
  obtain ⟨st1, e1, -, e3, e4, e5, -⟩ :=
    (C3_drain_cap (fun _ => 0) (List.range 40) (by decide)).1
  exact ⟨st1, e1, e3, e4, e5⟩

/-- C10 (empty-buffer sentinel). In every reachable state in which `hasNext()`
answers `false`, a `getNext()` that follows it on the unchanged transport
returns 0 and changes nothing; both cursors are 0 before and after. -/
theorem C10_empty_sentinel (hw : HardwareSerial σ) (st st1 : SerialCom σ)
    (h : Reachable hw st) (hfalse : hasNext hw st = some (false, st1)) :
    getNext hw st1 = some (0, st1) ∧ st1.bufferReadIndex = 0 ∧ st1.bufferLastIndex = 0 := by
  have hinv := reachable_inv hw st h
  obtain ⟨st1', e1, ⟨i0, i1, i2, i3⟩, -, e4⟩ := hasNext_spec hw st hinv
  rw [e1] at hfalse
  obtain ⟨hb, hst⟩ := Prod.mk.inj (Option.some.inj hfalse)
  subst hst
  have hnlt : ¬ st1'.bufferReadIndex < st1'.bufferLastIndex := of_decide_eq_false hb
  have hl : st1'.bufferLastIndex = 0 := i3 (by omega)
  have hr : st1'.bufferReadIndex = 0 := by omega
  have hsame : st1' = st := e4 hl
  refine ⟨?_, hr, hl⟩
  rw [hb] at e1
  subst hsame
  unfold getNext
  rw [e1]

/-- C10 at the freshly constructed object with nothing pending. -/
theorem C10_empty_sentinel_witness :
    Reachable pendingSerial (init [] (fun _ => 0)) ∧
      hasNext pendingSerial (init [] (fun _ => 0)) = some (false, init [] (fun _ => 0)) ∧
      getNext pendingSerial (init [] (fun _ => 0)) = some (0, init [] (fun _ => 0)) :=
  ⟨Reachable.constructed [] (fun _ => 0), rfl,
    (C10_empty_sentinel pendingSerial _ _ (Reachable.constructed [] (fun _ => 0)) rfl).1⟩

end SerialCom

/-! ## Lemmas and theorems: the speed ramp -/

namespace StepperMotor

/-- Arduino's `abs` is the absolute value. -/
theorem arduinoAbs_eq (x : ℚ) : arduinoAbs x = |x| := by
  unfold arduinoAbs
  by_cases h : x > 0
  · rw [if_pos h, abs_of_pos h]
  · rw [if_neg h, abs_of_nonpos (not_lt.mp h)]

/-- A ramp tick leaves the target speed alone. -/
theorem adaptSpeed_target (m : StepperMotor) :
    (adaptSpeed m).targetSpeedRevsPerSec = m.targetSpeedRevsPerSec := by
  unfold adaptSpeed
  by_cases h : arduinoAbs (m.targetSpeedRevsPerSec - m.speedRevsPerSec) < 1 / 4
  · simp only [h, if_true]
  · simp only [h, if_false]

/-- A ramp tick changes nothing but the current speed. -/
theorem adaptSpeed_frame (m : StepperMotor) :
    (adaptSpeed m).driver = m.driver ∧ (adaptSpeed m).isEnabled = m.isEnabled ∧
      (adaptSpeed m).STEPS_PER_REV = m.STEPS_PER_REV := by
  unfold adaptSpeed
  by_cases h : arduinoAbs (m.targetSpeedRevsPerSec - m.speedRevsPerSec) < 1 / 4
  · simp only [h, if_true, and_self]
  · simp only [h, if_false, and_self]

/-- The current speed after a ramp tick that snaps. -/
theorem adaptSpeed_snap (m : StepperMotor)
    (h : |m.targetSpeedRevsPerSec - m.speedRevsPerSec| < 1 / 4) :
    (adaptSpeed m).speedRevsPerSec = m.targetSpeedRevsPerSec := by
  unfold adaptSpeed
  simp only [arduinoAbs_eq, h, if_true]

/-- The current speed after a ramp tick that does not snap. -/
theorem adaptSpeed_step (m : StepperMotor)
    (h : ¬ |m.targetSpeedRevsPerSec - m.speedRevsPerSec| < 1 / 4) :
    (adaptSpeed m).speedRevsPerSec =
      m.speedRevsPerSec + (m.targetSpeedRevsPerSec - m.speedRevsPerSec) / 5 := by
  unfold adaptSpeed
  simp only [arduinoAbs_eq, h, if_false]

/-- The target speed is the same after any number of ramp ticks. -/
theorem iterate_target (m : StepperMotor) (n : Nat) :
    (adaptSpeed^[n] m).targetSpeedRevsPerSec = m.targetSpeedRevsPerSec := by
  induction n generalizing m with
  | zero => rfl
  | succ k ih => rw [Function.iterate_succ_apply, ih, adaptSpeed_target]

/-- One tick from below: the speed does not fall and does not pass the target. -/
theorem adaptSpeed_le (m : StepperMotor) (h : m.speedRevsPerSec ≤ m.targetSpeedRevsPerSec) :
    m.speedRevsPerSec ≤ (adaptSpeed m).speedRevsPerSec ∧
      (adaptSpeed m).speedRevsPerSec ≤ m.targetSpeedRevsPerSec := by
  by_cases hs : |m.targetSpeedRevsPerSec - m.speedRevsPerSec| < 1 / 4
  · rw [adaptSpeed_snap m hs]
    exact ⟨h, le_refl _⟩
  · rw [adaptSpeed_step m hs]
    constructor <;> linarith

/-- One tick from above: the speed does not rise and does not pass the target. -/
theorem adaptSpeed_ge (m : StepperMotor) (h : m.targetSpeedRevsPerSec ≤ m.speedRevsPerSec) :
    (adaptSpeed m).speedRevsPerSec ≤ m.speedRevsPerSec ∧
      m.targetSpeedRevsPerSec ≤ (adaptSpeed m).speedRevsPerSec := by
  by_cases hs : |m.targetSpeedRevsPerSec - m.speedRevsPerSec| < 1 / 4
  · rw [adaptSpeed_snap m hs]
    exact ⟨h, le_refl _⟩
  · rw [adaptSpeed_step m hs]
    constructor <;> linarith

/-- Started at or below the target, the speed is at or below it after any
number of ticks. -/
theorem iterate_le (m : StepperMotor) (h : m.speedRevsPerSec ≤ m.targetSpeedRevsPerSec)
    (n : Nat) : (adaptSpeed^[n] m).speedRevsPerSec ≤ m.targetSpeedRevsPerSec := by
  induction n with
  | zero => exact h
  | succ k ih =>
    rw [Function.iterate_succ_apply']
    have := (adaptSpeed_le (adaptSpeed^[k] m) (by rw [iterate_target]; exact ih)).2
    rw [iterate_target] at this
    exact this

/-- Started at or above the target, the speed is at or above it after any
number of ticks. -/
theorem iterate_ge (m : StepperMotor) (h : m.targetSpeedRevsPerSec ≤ m.speedRevsPerSec)
    (n : Nat) : m.targetSpeedRevsPerSec ≤ (adaptSpeed^[n] m).speedRevsPerSec := by
  induction n with
  | zero => exact h
  | succ k ih =>
    rw [Function.iterate_succ_apply']
    have := (adaptSpeed_ge (adaptSpeed^[k] m) (by rw [iterate_target]; exact ih)).2
    rw [iterate_target] at this
    exact this

/-- C4 (the ramp never overshoots). One `adaptSpeed` tick keeps the target and
yields a speed in the closed interval between the old speed and the target;
the distance to the target does not grow, and shrinks when it was not zero.
Hence, with the target held constant, the speeds after 0, 1, 2, ... ticks are
non-decreasing and never above the target when the start is at or below it,
and non-increasing and never below the target when the start is at or above
it. -/
theorem C4_ramp_never_overshoots (m : StepperMotor) :
    (adaptSpeed m).targetSpeedRevsPerSec = m.targetSpeedRevsPerSec ∧
      (min m.speedRevsPerSec m.targetSpeedRevsPerSec ≤ (adaptSpeed m).speedRevsPerSec ∧
        (adaptSpeed m).speedRevsPerSec ≤ max m.speedRevsPerSec m.targetSpeedRevsPerSec) ∧
      |m.targetSpeedRevsPerSec - (adaptSpeed m).speedRevsPerSec| ≤
        |m.targetSpeedRevsPerSec - m.speedRevsPerSec| ∧
      (m.speedRevsPerSec ≠ m.targetSpeedRevsPerSec →
        |m.targetSpeedRevsPerSec - (adaptSpeed m).speedRevsPerSec| <
          |m.targetSpeedRevsPerSec - m.speedRevsPerSec|) ∧
      (∀ n : Nat,
        (m.speedRevsPerSec ≤ m.targetSpeedRevsPerSec →
          (adaptSpeed^[n] m).speedRevsPerSec ≤ (adaptSpeed^[n + 1] m).speedRevsPerSec ∧
            (adaptSpeed^[n + 1] m).speedRevsPerSec ≤ m.targetSpeedRevsPerSec) ∧
        (m.targetSpeedRevsPerSec ≤ m.speedRevsPerSec →
          (adaptSpeed^[n + 1] m).speedRevsPerSec ≤ (adaptSpeed^[n] m).speedRevsPerSec ∧
            m.targetSpeedRevsPerSec ≤ (adaptSpeed^[n + 1] m).speedRevsPerSec)) := by
  refine ⟨adaptSpeed_target m, ?_, ?_, ?_, ?_⟩
  · rcases le_total m.speedRevsPerSec m.targetSpeedRevsPerSec with h | h
    · obtain ⟨h1, h2⟩ := adaptSpeed_le m h
      exact ⟨le_trans (min_le_left _ _) h1, le_trans h2 (le_max_right _ _)⟩
    · obtain ⟨h1, h2⟩ := adaptSpeed_ge m h
      exact ⟨le_trans (min_le_right _ _) h2, le_trans h1 (le_max_left _ _)⟩
  · rcases le_total m.speedRevsPerSec m.targetSpeedRevsPerSec with h | h
    · obtain ⟨h1, h2⟩ := adaptSpeed_le m h
      rw [abs_of_nonneg (by linarith), abs_of_nonneg (by linarith)]
      linarith
    · obtain ⟨h1, h2⟩ := adaptSpeed_ge m h
      rw [abs_of_nonpos (by linarith), abs_of_nonpos (by linarith)]
      linarith
  · intro hne
    by_cases hs : |m.targetSpeedRevsPerSec - m.speedRevsPerSec| < 1 / 4
    · rw [adaptSpeed_snap m hs, sub_self, abs_zero]
      exact abs_pos.mpr (sub_ne_zero.mpr (Ne.symm hne))
    · rw [adaptSpeed_step m hs]
      have hpos : 0 < |m.targetSpeedRevsPerSec - m.speedRevsPerSec| :=
        abs_pos.mpr (sub_ne_zero.mpr (Ne.symm hne))
      have e : m.targetSpeedRevsPerSec -
          (m.speedRevsPerSec + (m.targetSpeedRevsPerSec - m.speedRevsPerSec) / 5) =
          (4 / 5) * (m.targetSpeedRevsPerSec - m.speedRevsPerSec) := by ring
      rw [e, abs_mul, abs_of_pos (by norm_num : (0 : ℚ) < 4 / 5)]
      linarith
  · intro n
    constructor
    · intro h
      have hk := iterate_le m h n
      have := adaptSpeed_le (adaptSpeed^[n] m) (by rw [iterate_target]; exact hk)
      rw [iterate_target] at this
      rw [Function.iterate_succ_apply']
      exact this
    · intro h
      have hk := iterate_ge m h n
      have := adaptSpeed_ge (adaptSpeed^[n] m) (by rw [iterate_target]; exact hk)
      rw [iterate_target] at this
      rw [Function.iterate_succ_apply']
      exact this

/-- While no earlier gap was below the snap threshold, the speed after `k`
ticks is `T - (4/5)^k * (T - c0)`. -/
theorem iterate_before_snap (m : StepperMotor) :
    ∀ k : Nat,
      (∀ j, j < k →
        ¬ ((4 / 5 : ℚ) ^ j * |m.targetSpeedRevsPerSec - m.speedRevsPerSec| < 1 / 4)) →
      (adaptSpeed^[k] m).speedRevsPerSec =
        m.targetSpeedRevsPerSec -
          (4 / 5 : ℚ) ^ k * (m.targetSpeedRevsPerSec - m.speedRevsPerSec) := by
  intro k
  induction k with
  | zero =>
    intro _
    show m.speedRevsPerSec = _
    ring
  | succ k ih =>
    intro h
    have hk := ih (fun j hj => h j (Nat.lt_succ_of_lt hj))
    have hgap : ¬ |(adaptSpeed^[k] m).targetSpeedRevsPerSec -
        (adaptSpeed^[k] m).speedRevsPerSec| < 1 / 4 := by
      rw [iterate_target, hk]
      have e : m.targetSpeedRevsPerSec - (m.targetSpeedRevsPerSec -
          (4 / 5 : ℚ) ^ k * (m.targetSpeedRevsPerSec - m.speedRevsPerSec)) =
          (4 / 5 : ℚ) ^ k * (m.targetSpeedRevsPerSec - m.speedRevsPerSec) := by ring
      rw [e, abs_mul, abs_of_pos (pow_pos (by norm_num : (0 : ℚ) < 4 / 5) k)]
      exact h k (Nat.lt_succ_self k)
    rw [Function.iterate_succ_apply', adaptSpeed_step _ hgap, iterate_target, hk]
    ring

/-- Once the speed equals the target it stays there. -/
theorem iterate_at_target (m : StepperMotor)
    (h : m.speedRevsPerSec = m.targetSpeedRevsPerSec) (n : Nat) :
    (adaptSpeed^[n] m).speedRevsPerSec = m.targetSpeedRevsPerSec := by
  induction n with
  | zero => exact h
  | succ k ih =>
    rw [Function.iterate_succ_apply']
    have hs : |(adaptSpeed^[k] m).targetSpeedRevsPerSec -
        (adaptSpeed^[k] m).speedRevsPerSec| < 1 / 4 := by
      rw [iterate_target, ih, sub_self, abs_zero]
      norm_num
    rw [adaptSpeed_snap _ hs, iterate_target]

/-- Some power of 4/5 brings any gap below the snap threshold. -/
theorem exists_snap_tick (a : ℚ) : ∃ n : Nat, (4 / 5 : ℚ) ^ n * |a| < 1 / 4 := by
  by_cases ha : a = 0
  · exact ⟨0, by rw [ha, abs_zero, mul_zero]; norm_num⟩
  · have hpos : 0 < |a| := abs_pos.mpr ha
    obtain ⟨n, hn⟩ := exists_pow_lt_of_lt_one (div_pos (by norm_num : (0 : ℚ) < 1 / 4) hpos)
      (by norm_num : (4 / 5 : ℚ) < 1)
    exact ⟨n, (lt_div_iff₀ hpos).mp hn⟩

/-- C5 (the ramp settles exactly in bounded ticks). For a constant target `T`
and start `c0` there is a least `N` with `(4/5)^N * |T - c0| < 1/4`; for that
`N` the speed after tick `k` is `T - (4/5)^k * (T - c0)` for every `k ≤ N`,
and it is exactly `T` after tick `N + 1` and after every later tick. -/
theorem C5_ramp_settles (m : StepperMotor) :
    (∃ N : Nat, (4 / 5 : ℚ) ^ N * |m.targetSpeedRevsPerSec - m.speedRevsPerSec| < 1 / 4 ∧
      ∀ n, n < N →
        ¬ ((4 / 5 : ℚ) ^ n * |m.targetSpeedRevsPerSec - m.speedRevsPerSec| < 1 / 4)) ∧
    (∀ N : Nat, (4 / 5 : ℚ) ^ N * |m.targetSpeedRevsPerSec - m.speedRevsPerSec| < 1 / 4 →
      (∀ n, n < N →
        ¬ ((4 / 5 : ℚ) ^ n * |m.targetSpeedRevsPerSec - m.speedRevsPerSec| < 1 / 4)) →
      (∀ k, k ≤ N → (adaptSpeed^[k] m).speedRevsPerSec =
        m.targetSpeedRevsPerSec -
          (4 / 5 : ℚ) ^ k * (m.targetSpeedRevsPerSec - m.speedRevsPerSec)) ∧
      (∀ k, N < k → (adaptSpeed^[k] m).speedRevsPerSec = m.targetSpeedRevsPerSec)) := by
  constructor
  · have hex := exists_snap_tick (m.targetSpeedRevsPerSec - m.speedRevsPerSec)
    exact ⟨Nat.find hex, Nat.find_spec hex, fun n hn => Nat.find_min hex hn⟩
  · intro N hN hmin
    have hbefore : ∀ k, k ≤ N → (adaptSpeed^[k] m).speedRevsPerSec =
        m.targetSpeedRevsPerSec -
          (4 / 5 : ℚ) ^ k * (m.targetSpeedRevsPerSec - m.speedRevsPerSec) :=
      fun k hk => iterate_before_snap m k (fun j hj => hmin j (lt_of_lt_of_le hj hk))
    refine ⟨hbefore, ?_⟩
    have hsnap : (adaptSpeed^[N + 1] m).speedRevsPerSec = m.targetSpeedRevsPerSec := by
      rw [Function.iterate_succ_apply']
      apply (adaptSpeed_snap _ _).trans (iterate_target m N)
      rw [iterate_target, hbefore N (le_refl N)]
      have e : m.targetSpeedRevsPerSec - (m.targetSpeedRevsPerSec -
          (4 / 5 : ℚ) ^ N * (m.targetSpeedRevsPerSec - m.speedRevsPerSec)) =
          (4 / 5 : ℚ) ^ N * (m.targetSpeedRevsPerSec - m.speedRevsPerSec) := by ring
      rw [e, abs_mul, abs_of_pos (pow_pos (by norm_num : (0 : ℚ) < 4 / 5) N)]
      exact hN
    intro k hk
    obtain ⟨j, rfl⟩ : ∃ j, k = j + (N + 1) := ⟨k - (N + 1), by omega⟩
    rw [Function.iterate_add_apply]
    have := iterate_at_target (adaptSpeed^[N + 1] m)
      (by rw [hsnap, iterate_target]) j
    rw [this, iterate_target]

/-- C5 at `T = 1`, `c0 = 0`: the least `N` is 7, the speed after tick 7 is
`1 - (4/5)^7`, and the speed after tick 8 is exactly 1. -/
theorem C5_ramp_settles_witness :
    ((4 / 5 : ℚ) ^ 7 * |(1 : ℚ) - 0| < 1 / 4 ∧ ¬ ((4 / 5 : ℚ) ^ 6 * |(1 : ℚ) - 0| < 1 / 4)) ∧
      (adaptSpeed^[7] (motorAt 200 0 1)).speedRevsPerSec =
        1 - (4 / 5 : ℚ) ^ 7 * (1 - 0) ∧
      (adaptSpeed^[8] (motorAt 200 0 1)).speedRevsPerSec = 1 := by
  have hN : (4 / 5 : ℚ) ^ 7 * |(1 : ℚ) - 0| < 1 / 4 := by norm_num
  have hmin : ∀ n, n < 7 → ¬ ((4 / 5 : ℚ) ^ n * |(1 : ℚ) - 0| < 1 / 4) := by
    intro n hn
    interval_cases n <;> norm_num
  have h := (C5_ramp_settles (motorAt 200 0 1)).2 7 hN hmin
  exact ⟨⟨hN, hmin 6 (by decide)⟩, h.1 7 (le_refl 7), h.2 8 (by decide)⟩

end StepperMotor

/-! ## Lemmas and theorems: step pulses -/

namespace StepperDriver

/-- The four calls one `moveStep` adds to the trace. -/
theorem moveStep_trace (clock : Nat → Nat) (d : StepperDriver) (durationMicros : Int)
    (b : Board) :
    (d.moveStep clock durationMicros b).trace = b.trace ++
      [Event.digitalWrite d.PULSE_PIN Level.HIGH,
       Event.delayMicroseconds (toUInt (Int.tdiv durationMicros 2)),
       Event.digitalWrite d.PULSE_PIN Level.LOW,
       Event.delayMicroseconds (toUInt (arduinoMax
         (remainingMicros clock (toULong ((toULong (clock b.reads) : Int) + durationMicros)))
         0 (b.reads + 1)).1)] := by
  simp [moveStep, Board.emit]

/-- One `moveStep` is one pulse. -/
theorem moveStep_pulses (clock : Nat → Nat) (d : StepperDriver) (durationMicros : Int)
    (b : Board) :
    (d.moveStep clock durationMicros b).pulses d.PULSE_PIN = b.pulses d.PULSE_PIN + 1 := by
  unfold Board.pulses
  rw [moveStep_trace, List.count_append]
  simp [List.count_cons]

/-- `k` calls of `moveStep` are `k` pulses. -/
theorem iterate_moveStep_pulses (clock : Nat → Nat) (d : StepperDriver) (durationMicros : Int) :
    ∀ (k : Nat) (b : Board),
      ((d.moveStep clock durationMicros)^[k] b).pulses d.PULSE_PIN = b.pulses d.PULSE_PIN + k := by
  intro k
  induction k with
  | zero => intro b; rfl
  | succ j ih =>
    intro b
    rw [Function.iterate_succ_apply, ih, moveStep_pulses]
    omega

end StepperDriver

namespace StepperMotor

/-- The `for` loop of `moveSteps` ends within `numberSteps - i + 1` tests and
calls `moveStep` once for every `i` below `numberSteps`. -/
theorem moveStepsLoop_eq (clock : Nat → Nat) (d : StepperDriver) (durationMicros : Int)
    (numberSteps : Int) :
    ∀ (fuel : Nat) (i : Int) (b : Board), (numberSteps - i).toNat < fuel →
      moveStepsLoop clock d durationMicros numberSteps fuel i b =
        some ((d.moveStep clock durationMicros)^[(numberSteps - i).toNat] b) := by
  intro fuel
  induction fuel with
  | zero => intro i b h; omega
  | succ f ih =>
    intro i b h
    unfold moveStepsLoop
    by_cases hi : i < numberSteps
    · rw [if_pos hi, ih (i + 1) _ (by omega)]
      obtain ⟨k, hk⟩ : ∃ k, (numberSteps - i).toNat = k + 1 :=
        ⟨(numberSteps - i).toNat - 1, by omega⟩
      have hk1 : (numberSteps - (i + 1)).toNat = k := by omega
      rw [hk, hk1, Function.iterate_succ_apply]
    · rw [if_neg hi]
      have h0 : (numberSteps - i).toNat = 0 := by omega
      rw [h0]
      rfl

/-- The result of `moveSteps` on the branch that does not move. -/
theorem moveSteps_slow (clock : Nat → Nat) (numberSteps : Int) (m : StepperMotor) (b : Board)
    (h : (adaptSpeed m).speedRevsPerSec ≤ 1 / 2) :
    moveSteps clock numberSteps m b = some (0, adaptSpeed m, b) := by
  unfold moveSteps
  simp only [not_lt.mpr h, if_false]

/-- The result of `moveSteps` on the branch that moves, when the number of
steps per second is a non-zero `unsigned long`. -/
theorem moveSteps_fast (clock : Nat → Nat) (numberSteps : Int) (m : StepperMotor) (b : Board)
    (k : Nat) (h : (adaptSpeed m).speedRevsPerSec > 1 / 2)
    (hk : truncToULong ((adaptSpeed m).speedRevsPerSec * (adaptSpeed m).STEPS_PER_REV) = some k)
    (hk0 : k ≠ 0) :
    moveSteps clock numberSteps m b =
      some (numberSteps, adaptSpeed m,
        (m.driver.moveStep clock (toInt (1000000 / k)))^[numberSteps.toNat] b) := by
  unfold moveSteps
  simp only [h, if_true, hk, hk0, if_false]
  rw [moveStepsLoop_eq clock _ _ numberSteps (numberSteps.toNat + 1) 0 b (by omega)]
  simp only [sub_zero, (adaptSpeed_frame m).1]

/-- The result of `moveSteps` when the number of steps per second is zero. -/
theorem moveSteps_div_zero (clock : Nat → Nat) (numberSteps : Int) (m : StepperMotor)
    (b : Board) (h : (adaptSpeed m).speedRevsPerSec > 1 / 2)
    (hk : truncToULong ((adaptSpeed m).speedRevsPerSec * (adaptSpeed m).STEPS_PER_REV) = some 0) :
    moveSteps clock numberSteps m b = none := by
  unfold moveSteps
  simp only [h, if_true, hk]

/-- The conversion of a non-negative `double` below `2^32` is its floor. -/
theorem truncToULong_of_nonneg (x : ℚ) (h0 : 0 ≤ x) (h32 : ⌊x⌋ < 4294967296) :
    truncToULong x = some ⌊x⌋.toNat := by
  unfold truncToULong
  have hf : 0 ≤ ⌊x⌋ := Int.floor_nonneg.mpr h0
  simp only [h0, if_true, hf, h32, and_self]

end StepperMotor

/-! ## Claims about `moveSteps` and `moveStep` -/

namespace StepperMotor

/-- The speed after the ramp tick of a motor at 61/125 rev/s with target 1. -/
theorem adaptSpeed_trace_fourth (spr : Int) :
    (adaptSpeed (motorAt spr (61 / 125) 1)).speedRevsPerSec = 369 / 625 := by
  rw [adaptSpeed_step _ (by simp only [motorAt]; norm_num [abs_of_pos])]
  simp only [motorAt]
  norm_num

end StepperMotor

namespace StepperDriver

/-- C8 fails on the code: with `durationMicros = 500`, the clock at 1000 on
entry and at 1510 in both reads after the pulse pin is set LOW (10
microseconds past the stop time 1500), the second wait is 65526 microseconds,
not 0: the `unsigned long` difference `1500 - 1510` wraps to `4294967286`,
`max(.., 0)` keeps it, and `delayMicroseconds` receives its low 16 bits. -/
theorem C8_clamp_code_bug :
    (moveStep (fun k => if k = 0 then 1000 else 1510)
        { ENABLE_PIN := 2, DIR_PIN := 3, PULSE_PIN := 4 } 500 { trace := [], reads := 0 }).trace =
      [Event.digitalWrite 4 Level.HIGH, Event.delayMicroseconds 250,
       Event.digitalWrite 4 Level.LOW, Event.delayMicroseconds 65526] ∧
    (arduinoMax (remainingMicros (fun _ => 1510) 1500) 0 1).1 = 4294967286 := by
  decide

/-- The second wait of `moveStep` when the first clock read after the LOW
write is exactly the stop time: the difference is 0 and no further read is
made. -/
theorem arduinoMax_remaining_zero (clock : Nat → Nat) (stop reads : Nat)
    (h : (remainingMicros clock stop reads).1 = 0) :
    arduinoMax (remainingMicros clock stop) 0 reads = (0, reads + 1) := by
  unfold arduinoMax
  rw [if_neg (by omega)]
  rfl

/-- The second wait of `moveStep` when the first clock read after the LOW
write is not the stop time: the clock is read again and that difference is
waited. -/
theorem arduinoMax_remaining_pos (clock : Nat → Nat) (stop reads : Nat)
    (h : (remainingMicros clock stop reads).1 ≠ 0) :
    arduinoMax (remainingMicros clock stop) 0 reads =
      (toULong ((stop : Int) - (toULong (clock (reads + 1)) : Int)), reads + 2) := by
  unfold arduinoMax
  rw [if_pos (by omega)]
  rfl

/-- C9, as stated, fails: `max` evaluates `stopTimeMicros - micros()` twice, so
the second wait is taken from a later clock read than the one that is
compared. With `d = 500`, entry at 1000 and clock reads 1300 and 1310 after
the LOW write, the code waits 190 microseconds, not `500 - (1300 - 1000) = 200`;
with reads 1499 and 1501 it waits 65535 microseconds, not 1. -/
theorem C9_self_correcting_pulse_counterexample :
    (moveStep (fun k => if k = 0 then 1000 else if k = 1 then 1300 else 1310)
        { ENABLE_PIN := 2, DIR_PIN := 3, PULSE_PIN := 4 } 500 { trace := [], reads := 0 }).trace =
      [Event.digitalWrite 4 Level.HIGH, Event.delayMicroseconds 250,
       Event.digitalWrite 4 Level.LOW, Event.delayMicroseconds 190] ∧
    (moveStep (fun k => if k = 0 then 1000 else if k = 1 then 1499 else 1501)
        { ENABLE_PIN := 2, DIR_PIN := 3, PULSE_PIN := 4 } 500 { trace := [], reads := 0 }).trace =
      [Event.digitalWrite 4 Level.HIGH, Event.delayMicroseconds 250,
       Event.digitalWrite 4 Level.LOW, Event.delayMicroseconds 65535] := by
  decide

/-- C9 (self-correcting step pulse), amended. For every `int` duration
`d ≥ 0`, whatever the clock does, `moveStep(d)` adds exactly four calls: the
pulse pin HIGH, a wait of `d / 2`, the pulse pin LOW, and a second wait; it is
one pulse and leaves the pulse pin LOW. When `t0 + d` is below `2^32` for the
clock value `t0` on entry: if the first clock read after the LOW write is
exactly `t0 + d`, the second wait is 0 and the clock is not read again; if
that read `t1` has `t0 ≤ t1 < t0 + d`, the clock is read once more, and if
this last read `t2` has `t0 ≤ t2` and `t2 - t0 ≤ d`, the second wait is
exactly `d - (t2 - t0)`, so the first wait, the further time `(t2 - t0) - d / 2`
up to the last read and the second wait sum to `d`. -/
theorem C9_self_correcting_pulse (clock : Nat → Nat) (d : StepperDriver)
    (durationMicros : Int) (b : Board)
    (h0 : 0 ≤ durationMicros) (hint : durationMicros < 32768) :
    ∃ w1 w2 : Nat,
      (d.moveStep clock durationMicros b).trace = b.trace ++
        [Event.digitalWrite d.PULSE_PIN Level.HIGH, Event.delayMicroseconds w1,
         Event.digitalWrite d.PULSE_PIN Level.LOW, Event.delayMicroseconds w2] ∧
      (w1 : Int) = durationMicros / 2 ∧
      (d.moveStep clock durationMicros b).pulses d.PULSE_PIN = b.pulses d.PULSE_PIN + 1 ∧
      lastWrite d.PULSE_PIN (d.moveStep clock durationMicros b).trace = some Level.LOW ∧
      ((clock b.reads : Int) + durationMicros < 4294967296 →
        ((clock (b.reads + 1) : Int) = clock b.reads + durationMicros →
          w2 = 0 ∧ (d.moveStep clock durationMicros b).reads = b.reads + 2) ∧
        (clock b.reads ≤ clock (b.reads + 1) →
          (clock (b.reads + 1) : Int) < clock b.reads + durationMicros →
          clock b.reads ≤ clock (b.reads + 2) →
          (clock (b.reads + 2) : Int) - clock b.reads ≤ durationMicros →
          (w2 : Int) = durationMicros - ((clock (b.reads + 2) : Int) - clock b.reads) ∧
            (w1 : Int) + (((clock (b.reads + 2) : Int) - clock b.reads) - w1) + w2 =
              durationMicros ∧
            (d.moveStep clock durationMicros b).reads = b.reads + 3)) := by
  have hw1 : ((toUInt (Int.tdiv durationMicros 2) : Nat) : Int) = durationMicros / 2 := by
    rw [Int.tdiv_eq_ediv h0 (by decide)]
    unfold toUInt
    omega
  have hreads : (d.moveStep clock durationMicros b).reads =
      (arduinoMax (remainingMicros clock
        (toULong ((toULong (clock b.reads) : Int) + durationMicros))) 0 (b.reads + 1)).2 := rfl
  refine ⟨_, _, moveStep_trace clock d durationMicros b, hw1,
    moveStep_pulses clock d _ b, ?_, ?_⟩
  · rw [moveStep_trace]
    simp [lastWrite, List.foldl_append]
  · intro hwrap
    have hstop : ((toULong ((toULong (clock b.reads) : Int) + durationMicros) : Nat) : Int) =
        clock b.reads + durationMicros := by
      unfold toULong
      omega
    constructor
    · intro heq
      have hz : (remainingMicros clock
          (toULong ((toULong (clock b.reads) : Int) + durationMicros)) (b.reads + 1)).1 = 0 := by
        show toULong _ = 0
        rw [hstop]
        unfold toULong
        omega
      rw [hreads, arduinoMax_remaining_zero _ _ _ hz]
      exact ⟨rfl, rfl⟩
    · intro hm1 hlt hm2 hle
      have hnz : (remainingMicros clock
          (toULong ((toULong (clock b.reads) : Int) + durationMicros)) (b.reads + 1)).1 ≠ 0 := by
        show toULong _ ≠ 0
        rw [hstop]
        unfold toULong
        omega
      rw [hreads, arduinoMax_remaining_pos _ _ _ hnz]
      have hw2 : ((toUInt (toULong (((toULong ((toULong (clock b.reads) : Int) +
          durationMicros) : Nat) : Int) - (toULong (clock (b.reads + 1 + 1)) : Int))) : Nat) : Int) =
          durationMicros - ((clock (b.reads + 2) : Int) - clock b.reads) := by
        rw [hstop]
        show ((toUInt (toULong (_ - (toULong (clock (b.reads + 2)) : Int))) : Nat) : Int) = _
        unfold toUInt toULong
        omega
      refine ⟨hw2, ?_, rfl⟩
      rw [hw2, hw1]
      omega

/-- C9 at `d = 500`, entry at 1000 and clock reads 1300 and 1310 after the LOW
write: the waits are 250 and `500 - (1310 - 1000) = 190`, and the clock is
read three times. -/
theorem C9_self_correcting_pulse_witness :
    ∃ w1 w2 : Nat,
      (moveStep (fun k => if k = 0 then 1000 else if k = 1 then 1300 else 1310)
          { ENABLE_PIN := 2, DIR_PIN := 3, PULSE_PIN := 4 } 500 { trace := [], reads := 0 }).trace =
        [] ++ [Event.digitalWrite 4 Level.HIGH, Event.delayMicroseconds w1,
          Event.digitalWrite 4 Level.LOW, Event.delayMicroseconds w2] ∧
      (w1 : Int) = 500 / 2 ∧ (w2 : Int) = 500 - (1310 - 1000) := by
  obtain ⟨w1, w2, h1, h2, -, -, h5⟩ := C9_self_correcting_pulse
    (fun k => if k = 0 then 1000 else if k = 1 then 1300 else 1310)
    { ENABLE_PIN := 2, DIR_PIN := 3, PULSE_PIN := 4 }
    500 { trace := [], reads := 0 } (by decide) (by decide)
  exact ⟨w1, w2, h1, h2,
    ((h5 (by decide)).2 (by decide) (by decide) (by decide) (by decide)).1⟩

end StepperDriver

/-! ## Further claims about `SerialCom` -/

namespace SerialCom

variable {σ : Type}

/-- `getNext` is `if hasNext() then remove-oldest else 0`, in every state. -/
theorem getNext_eq_getNextSpec (hw : HardwareSerial σ) (st : SerialCom σ) :
    getNext hw st = getNextSpec hw st := by
  unfold getNext getNextSpec removeOldest
  cases hasNext hw st with
  | none => rfl
  | some p =>
    obtain ⟨b, st1⟩ := p
    cases b
    · rfl
    · cases readAt st1.readBuffer st1.bufferReadIndex <;> rfl

/-- C17 (`hasNext` only drains when empty). In every reachable state whose
buffer is non-empty, for any transport, `hasNext()` answers `true` and leaves
the whole state as it was: transport, buffer contents and both cursors. And in
every reachable state `hasNext()` has a result, and a second call right after
it, on the transport as the first call left it, gives the same answer and the
same state. -/
theorem C17_hasNext_only_drains_when_empty (hw : HardwareSerial σ) (st : SerialCom σ)
    (h : Reachable hw st) :
    (st.bufferReadIndex ≠ st.bufferLastIndex → hasNext hw st = some (true, st)) ∧
      ∃ b st1, hasNext hw st = some (b, st1) ∧ hasNext hw st1 = some (b, st1) := by
  have hinv := reachable_inv hw st h
  constructor
  · intro hne
    obtain ⟨h0, h1, h2, h3⟩ := hinv
    have hl : st.bufferLastIndex ≠ 0 := by
      intro hl
      omega
    rw [hasNext_of_ne_zero hw st hl, decide_eq_true]
    omega
  · obtain ⟨st1, e1, -, -, e4⟩ := hasNext_spec hw st hinv
    refine ⟨_, st1, e1, ?_⟩
    by_cases hl : st1.bufferLastIndex = 0
    · have hst : st1 = st := e4 hl
      rw [hst] at e1 ⊢
      exact e1
    · exact hasNext_of_ne_zero hw st1 hl

/-- C17 after one `getNext()` on 40 pending bytes: 31 bytes are buffered, 8 are
pending in the transport, and `hasNext()` answers `true` and changes nothing. -/
theorem C17_hasNext_only_drains_when_empty_witness :
    ∃ st1, getNext pendingSerial (init (List.range 40) (fun _ => 0)) = some (0, st1) ∧
      Reachable pendingSerial st1 ∧ st1.serial = [32, 33, 34, 35, 36, 37, 38, 39] ∧
      st1.bufferReadIndex ≠ st1.bufferLastIndex ∧
      hasNext pendingSerial st1 = some (true, st1) :=
  ⟨_, rfl, Reachable.afterGetNext (Reachable.constructed (List.range 40) (fun _ => 0)) rfl,
    rfl, by decide,
    (C17_hasNext_only_drains_when_empty pendingSerial _
      (Reachable.afterGetNext (Reachable.constructed (List.range 40) (fun _ => 0)) rfl)).1
      (by decide)⟩

/-- C18 (`getNext` drains on an empty buffer). On an empty buffer and a
transport with the pending bytes `b1 :: rest`, a `getNext()` call returns `b1`,
takes the first `min(k, 32)` bytes out of the transport, and leaves the bytes
after `b1` among them, in order, as the undelivered bytes of the buffer; with
a single pending byte both cursors are 0 afterwards. And in every state, for
any transport, `getNext()` has the value and final state of
`if hasNext() then remove-oldest else 0`. -/
theorem C18_getNext_drains (readBuffer : Fin 32 → Nat) (b1 : Nat) (rest : List Nat)
    (ht : ∀ b ∈ b1 :: rest, b < 256) :
    (∃ st2, getNext pendingSerial (init (b1 :: rest) readBuffer) = some (b1, st2) ∧
      st2.serial = (b1 :: rest).drop 32 ∧ undelivered st2 = rest.take 31 ∧
      (rest = [] → st2.bufferReadIndex = 0 ∧ st2.bufferLastIndex = 0)) ∧
    (∀ (τ : Type) (hw : HardwareSerial τ) (st : SerialCom τ),
      getNext hw st = getNextSpec hw st) := by
  refine ⟨?_, fun τ hw st => getNext_eq_getNextSpec hw st⟩
  obtain ⟨st1, e1, e2, e3, e4, e5, -⟩ := hasNext_pending (init (b1 :: rest) readBuffer) ht rfl rfl
  have hser : (init (b1 :: rest) readBuffer).serial = b1 :: rest := rfl
  rw [hser] at e1 e3 e4 e5
  rw [List.length_cons] at e1 e3
  have hpos : (0 : Int) < ((min (rest.length + 1) 32 : Nat) : Int) := by omega
  have hle : ((min (rest.length + 1) 32 : Nat) : Int) ≤ 32 := by omega
  have h0 : 0 ≤ st1.bufferReadIndex := by omega
  have h1 : st1.bufferReadIndex < st1.bufferLastIndex := by omega
  have h2 : st1.bufferLastIndex ≤ 32 := by omega
  have hcons := undelivered_cons st1 h0 h1 h2
  have hget := getNext_of_nonempty pendingSerial st1 h0 h1 h2
  have hsame : getNext pendingSerial (init (b1 :: rest) readBuffer) = getNext pendingSerial st1 := by
    rw [getNext_eq_getNextSpec, getNext_eq_getNextSpec]
    unfold getNextSpec
    rw [e1, hasNext_of_ne_zero pendingSerial st1 (by omega), decide_eq_true h1, decide_eq_true]
    omega
  rw [e4, List.take_succ_cons] at hcons
  obtain ⟨hv, htail⟩ := List.cons.inj hcons
  rw [hsame, hget, ← hv]
  refine ⟨_, rfl, ?_, htail.symm, ?_⟩
  · by_cases he : st1.bufferReadIndex + 1 = st1.bufferLastIndex
    · rw [if_pos he]
      exact e5
    · rw [if_neg he]
      exact e5
  · intro hrest
    have he : st1.bufferReadIndex + 1 = st1.bufferLastIndex := by
      rw [e2, e3, hrest]
      rfl
    rw [if_pos he]
    exact ⟨rfl, rfl⟩

/-- C18 at 40 pending bytes: the call returns the first one, buffers the next
31 and leaves 8 in the transport. -/
theorem C18_getNext_drains_witness :
    (∀ b ∈ 0 :: List.range' 1 39, b < 256) ∧
      ∃ st2, getNext pendingSerial (init (0 :: List.range' 1 39) (fun _ => 0)) = some (0, st2) ∧
        st2.serial = [32, 33, 34, 35, 36, 37, 38, 39] ∧
        undelivered st2 = List.range' 1 31 := by
  refine ⟨by decide, ?_⟩
  obtain ⟨st2, e1, e2, e3, -⟩ :=
    (C18_getNext_drains (fun _ => 0) 0 (List.range' 1 39) (by decide)).1
  exact ⟨st2, e1, e2, e3⟩

end SerialCom

/-! ## Further lemmas: traces and `moveSteps` -/

/-- The last write to `pin` after one more `digitalWrite`. -/
theorem lastWrite_append_digitalWrite (pin p : Int) (l : Level) (t : List Event) :
    lastWrite pin (t ++ [Event.digitalWrite p l]) =
      if p = pin then some l else lastWrite pin t := by
  simp [lastWrite, List.foldl_append]

/-- A wait does not change the last write to a pin. -/
theorem lastWrite_append_delay (pin : Int) (us : Nat) (t : List Event) :
    lastWrite pin (t ++ [Event.delayMicroseconds us]) = lastWrite pin t := by
  simp [lastWrite, List.foldl_append]

/-- A `pinMode` call does not change the last write to a pin. -/
theorem lastWrite_append_pinMode (pin p : Int) (t : List Event) :
    lastWrite pin (t ++ [Event.pinModeOutput p]) = lastWrite pin t := by
  simp [lastWrite, List.foldl_append]

namespace StepperDriver

/-- A step pulse does not change the last write to a pin other than the pulse
pin. -/
theorem lastWrite_moveStep (clock : Nat → Nat) (d : StepperDriver) (durationMicros : Int)
    (b : Board) (pin : Int) (h : pin ≠ d.PULSE_PIN) :
    lastWrite pin (d.moveStep clock durationMicros b).trace = lastWrite pin b.trace := by
  have hne : ¬ d.PULSE_PIN = pin := fun e => h e.symm
  rw [moveStep_trace]
  simp [lastWrite, List.foldl_append, hne]

/-- Step pulses do not change the last write to a pin other than the pulse
pin. -/
theorem lastWrite_iterate_moveStep (clock : Nat → Nat) (d : StepperDriver)
    (durationMicros : Int) (pin : Int) (h : pin ≠ d.PULSE_PIN) :
    ∀ (k : Nat) (b : Board),
      lastWrite pin ((d.moveStep clock durationMicros)^[k] b).trace = lastWrite pin b.trace := by
  intro k
  induction k with
  | zero => intro b; rfl
  | succ j ih =>
    intro b
    rw [Function.iterate_succ_apply, ih, lastWrite_moveStep clock d durationMicros b pin h]

end StepperDriver

namespace StepperMotor

/-- Whenever `moveSteps` has a result, the motor afterwards is the motor after
one ramp tick and the board is the board after some number of `moveStep`
calls with one duration. -/
theorem moveSteps_some (clock : Nat → Nat) (numberSteps : Int) (m : StepperMotor) (b : Board)
    (r : Int) (m1 : StepperMotor) (b1 : Board)
    (h : moveSteps clock numberSteps m b = some (r, m1, b1)) :
    m1 = adaptSpeed m ∧
      ∃ (d : Int) (k : Nat), b1 = (m.driver.moveStep clock d)^[k] b := by
  by_cases hs : (adaptSpeed m).speedRevsPerSec ≤ 1 / 2
  · rw [moveSteps_slow clock numberSteps m b hs] at h
    obtain ⟨-, h2⟩ := Prod.mk.inj (Option.some.inj h)
    obtain ⟨h3, h4⟩ := Prod.mk.inj h2
    exact ⟨h3.symm, 0, 0, h4.symm⟩
  · have hgt : (adaptSpeed m).speedRevsPerSec > 1 / 2 := not_le.mp hs
    cases hk : truncToULong ((adaptSpeed m).speedRevsPerSec * (adaptSpeed m).STEPS_PER_REV) with
    | none =>
      unfold moveSteps at h
      simp only [hgt, if_true, hk] at h
      exact absurd h (by simp)
    | some k =>
      by_cases hk0 : k = 0
      · rw [hk0] at hk
        rw [moveSteps_div_zero clock numberSteps m b hgt hk] at h
        exact absurd h (by simp)
      · rw [moveSteps_fast clock numberSteps m b k hgt hk hk0] at h
        obtain ⟨-, h2⟩ := Prod.mk.inj (Option.some.inj h)
        obtain ⟨h3, h4⟩ := Prod.mk.inj h2
        exact ⟨h3.symm, _, _, h4.symm⟩

/-- With speed and target at most 0.5, the speed after a ramp tick is at most
0.5. -/
theorem adaptSpeed_le_half (m : StepperMotor) (hT : m.targetSpeedRevsPerSec ≤ 1 / 2)
    (hc : m.speedRevsPerSec ≤ 1 / 2) : (adaptSpeed m).speedRevsPerSec ≤ 1 / 2 := by
  by_cases hs : |m.targetSpeedRevsPerSec - m.speedRevsPerSec| < 1 / 4
  · rw [adaptSpeed_snap m hs]
    exact hT
  · rw [adaptSpeed_step m hs]
    linarith

end StepperMotor

/-! ## Claims about the enable and direction outputs -/

namespace StepperDriver

/-- C13 (output polarity of the pulse driver). For every driver and board,
`setEnabled(true)` adds exactly one call, `digitalWrite(ENABLE_PIN, LOW)`, and
`setEnabled(false)` exactly `digitalWrite(ENABLE_PIN, HIGH)`;
`setDirection(CLOCKWISE)` adds exactly `digitalWrite(DIR_PIN, HIGH)` and
`setDirection(COUNTER_CLOCKWISE)` exactly `digitalWrite(DIR_PIN, LOW)`; none of
them reads the clock. -/
theorem C13_output_polarity (d : StepperDriver) (b : Board) :
    (d.setEnabled true b).trace = b.trace ++ [Event.digitalWrite d.ENABLE_PIN Level.LOW] ∧
      (d.setEnabled false b).trace = b.trace ++ [Event.digitalWrite d.ENABLE_PIN Level.HIGH] ∧
      (d.setDirection MotorDirection.CLOCKWISE b).trace =
        b.trace ++ [Event.digitalWrite d.DIR_PIN Level.HIGH] ∧
      (d.setDirection MotorDirection.COUNTER_CLOCKWISE b).trace =
        b.trace ++ [Event.digitalWrite d.DIR_PIN Level.LOW] ∧
      (∀ e : Bool, (d.setEnabled e b).reads = b.reads) ∧
      (∀ dir : MotorDirection, (d.setDirection dir b).reads = b.reads) :=
  ⟨rfl, rfl, rfl, rfl, fun _ => rfl, fun _ => rfl⟩

end StepperDriver

namespace StepperMotor

/-- C16, as stated, fails: `StepperMotor::setEnabled(true)` writes the enable
pin LOW, not HIGH, and `setEnabled(false)` writes it HIGH, not LOW. -/
theorem C16_setEnabled_level_counterexample :
    lastWrite 2 (setEnabled (motorAt 200 0 0) true { trace := [], reads := 0 }).2.trace =
        some Level.LOW ∧
      lastWrite 2 (setEnabled (motorAt 200 0 0) false { trace := [], reads := 0 }).2.trace =
        some Level.HIGH := by
  decide

/-- C16, amended. `StepperMotor::setEnabled(isEnabled)` sets the driver's
enable port to LOW if `isEnabled` is true, else HIGH, for both boolean values:
it adds exactly that one `digitalWrite` to the enable pin, which is then the
last level written to it. -/
theorem C16_setEnabled_level (m : StepperMotor) (b : Board) :
    (setEnabled m true b).2.trace =
        b.trace ++ [Event.digitalWrite m.driver.ENABLE_PIN Level.LOW] ∧
      (setEnabled m false b).2.trace =
        b.trace ++ [Event.digitalWrite m.driver.ENABLE_PIN Level.HIGH] ∧
      lastWrite m.driver.ENABLE_PIN (setEnabled m true b).2.trace = some Level.LOW ∧
      lastWrite m.driver.ENABLE_PIN (setEnabled m false b).2.trace = some Level.HIGH := by
  refine ⟨rfl, rfl, ?_, ?_⟩
  · show lastWrite _ (b.trace ++ [Event.digitalWrite m.driver.ENABLE_PIN Level.LOW]) = _
    rw [lastWrite_append_digitalWrite, if_pos rfl]
  · show lastWrite _ (b.trace ++ [Event.digitalWrite m.driver.ENABLE_PIN Level.HIGH]) = _
    rw [lastWrite_append_digitalWrite, if_pos rfl]

/-- C15 (set/get round trip). For every motor state, board and boolean `e`,
`getEnabled()` after `setEnabled(e)` returns `e`, and the motor state after
`setEnabled(e)` is the same for every board; `setDirection`,
`setTargetSpeed`, the ramp tick and every `moveSteps` call that has a result
leave the value of `getEnabled()` as it was. -/
theorem C15_set_get_round_trip (m : StepperMotor) (b : Board) :
    (∀ e : Bool, getEnabled (setEnabled m e b).1 = e) ∧
      (∀ (e : Bool) (b1 : Board), (setEnabled m e b1).1 = (setEnabled m e b).1) ∧
      (∀ dir : MotorDirection, getEnabled (setDirection m dir b).1 = getEnabled m) ∧
      (∀ T : ℚ, getEnabled (setTargetSpeed m T) = getEnabled m) ∧
      getEnabled (adaptSpeed m) = getEnabled m ∧
      (∀ (clock : Nat → Nat) (numberSteps r : Int) (m1 : StepperMotor) (b1 : Board),
        moveSteps clock numberSteps m b = some (r, m1, b1) → getEnabled m1 = getEnabled m) := by
  refine ⟨fun _ => rfl, fun _ _ => rfl, fun _ => rfl, fun _ => rfl, (adaptSpeed_frame m).2.1, ?_⟩
  intro clock numberSteps r m1 b1 h
  rw [(moveSteps_some clock numberSteps m b r m1 b1 h).1]
  exact (adaptSpeed_frame m).2.1

/-- C11 fails on the code: at the fourth call of the start-up trace (post-ramp
speed 0.5904) `moveSteps(-3)` returns -3 and leaves the board untouched, so it
makes no step pulse; the value returned is not the number of pulses made. -/
theorem C11_returned_count_code_bug :
    moveSteps (fun _ => 0) (-3) (motorAt 200 (61 / 125) 1) { trace := [], reads := 0 } =
      some (-3, adaptSpeed (motorAt 200 (61 / 125) 1), { trace := [], reads := 0 }) ∧
    ({ trace := [], reads := 0 } : Board).pulses 4 = 0 := by
  have hs := adaptSpeed_trace_fourth 200
  have hgt : (adaptSpeed (motorAt 200 (61 / 125) 1)).speedRevsPerSec > 1 / 2 := by
    rw [hs]
    norm_num
  have hx : (369 / 625 : ℚ) * ((motorAt 200 (61 / 125) 1).STEPS_PER_REV : ℚ) = 2952 / 25 := by
    simp only [motorAt]
    norm_num
  have hfl : ⌊(2952 / 25 : ℚ)⌋ = 118 := by
    rw [Int.floor_eq_iff]
    norm_num
  have hk : truncToULong ((adaptSpeed (motorAt 200 (61 / 125) 1)).speedRevsPerSec *
      (adaptSpeed (motorAt 200 (61 / 125) 1)).STEPS_PER_REV) = some 118 := by
    rw [hs, (adaptSpeed_frame _).2.2, hx,
      truncToULong_of_nonneg _ (by norm_num) (by rw [hfl]; norm_num), hfl]
    rfl
  refine ⟨?_, rfl⟩
  rw [moveSteps_fast (fun _ => 0) (-3) _ _ 118 hgt hk (by decide)]
  rfl

/-- C20 (low or negative targets never move the motor). With the target held
at a value of at most 0.5 and a current speed of at most 0.5, any sequence of
`moveSteps` calls, whatever their `numberSteps`, has a result, every call
returns 0, the board is untouched (no pulse, no clock read), and the speed is
at most 0.5 after every ramp tick. -/
theorem C20_low_target_never_moves (clock : Nat → Nat) (ns : List Int) (m : StepperMotor)
    (b : Board) (hT : m.targetSpeedRevsPerSec ≤ 1 / 2) (hc : m.speedRevsPerSec ≤ 1 / 2) :
    moveStepsSeq clock ns m b = some (ns.map (fun _ => 0), adaptSpeed^[ns.length] m, b) ∧
      ∀ k : Nat, (adaptSpeed^[k] m).speedRevsPerSec ≤ 1 / 2 := by
  constructor
  · induction ns generalizing m with
    | nil => rfl
    | cons n ns ih =>
      have h1 := adaptSpeed_le_half m hT hc
      unfold moveStepsSeq
      rw [moveSteps_slow clock n m b h1]
      simp only [ih (adaptSpeed m) (by rw [adaptSpeed_target]; exact hT) h1]
      rfl
  · intro k
    induction k with
    | zero => exact hc
    | succ j ih =>
      rw [Function.iterate_succ_apply']
      exact adaptSpeed_le_half _ (by rw [iterate_target]; exact hT) ih

/-- C20 at target -1 and speed 0 with the calls `moveSteps(5)`, `moveSteps(1)`
and `moveSteps(200)`: all three return 0 and the board is untouched. -/
theorem C20_low_target_never_moves_witness :
    ((-1 : ℚ) ≤ 1 / 2 ∧ (0 : ℚ) ≤ 1 / 2) ∧
      moveStepsSeq (fun _ => 0) [5, 1, 200] (motorAt 200 0 (-1)) { trace := [], reads := 0 } =
        some ([0, 0, 0], adaptSpeed^[3] (motorAt 200 0 (-1)), { trace := [], reads := 0 }) :=
  ⟨by norm_num,
    (C20_low_target_never_moves (fun _ => 0) [5, 1, 200] (motorAt 200 0 (-1))
      { trace := [], reads := 0 } (by simp only [motorAt]; norm_num)
      (by simp only [motorAt]; norm_num)).1⟩

end StepperMotor

/-! ## Claims about the enable line -/

namespace StepperMotor

/-- In every reachable state of a motor whose enable pin is not shared, the
last level written to the enable pin is the one `isEnabled` stands for. -/
theorem reachable_enable_line (clock : Nat → Nat) (m : StepperMotor) (b : Board)
    (h : Reachable clock m b) :
    m.driver.ENABLE_PIN ≠ m.driver.DIR_PIN → m.driver.ENABLE_PIN ≠ m.driver.PULSE_PIN →
      lastWrite m.driver.ENABLE_PIN b.trace =
        some (if m.isEnabled then Level.LOW else Level.HIGH) := by
  induction h with
  | constructed enablePin dirPin pulsePin spr b0 =>
    intro _ _
    show lastWrite enablePin (b0.trace ++ _ ++ _ ++ _ ++ _ ++ _ ++
      [Event.digitalWrite enablePin Level.HIGH]) = _
    rw [lastWrite_append_digitalWrite, if_pos rfl]
    rfl
  | @afterSetEnabled m0 b0 isEnabled _ _ =>
    intro _ _
    show lastWrite m0.driver.ENABLE_PIN
      (b0.trace ++ [Event.digitalWrite m0.driver.ENABLE_PIN
        (if isEnabled then Level.LOW else Level.HIGH)]) =
      some (if isEnabled then Level.LOW else Level.HIGH)
    rw [lastWrite_append_digitalWrite, if_pos rfl]
  | @afterSetDirection m0 b0 dir _ ih =>
    intro hd hp
    show lastWrite m0.driver.ENABLE_PIN (b0.trace ++ [Event.digitalWrite m0.driver.DIR_PIN _]) = _
    rw [lastWrite_append_digitalWrite, if_neg (fun e => hd e.symm)]
    exact ih hd hp
  | afterSetTargetSpeed T _ ih =>
    intro hd hp
    exact ih hd hp
  | @afterMoveSteps m0 m1 b0 b1 numberSteps r _ hstep ih =>
    intro hd hp
    obtain ⟨hm, d, k, hb⟩ := moveSteps_some clock numberSteps m0 b0 r m1 b1 hstep
    subst hm
    subst hb
    rw [(adaptSpeed_frame m0).1] at hd hp ⊢
    rw [(adaptSpeed_frame m0).2.1, StepperDriver.lastWrite_iterate_moveStep clock _ d _ hp]
    exact ih hd hp

/-- C14, as stated, fails: a motor constructed with the enable and direction
outputs on the same pin 2 has, after `setDirection(COUNTER_CLOCKWISE)`, LOW as
the last level written to its enable pin while `getEnabled()` is false. -/
theorem C14_enable_mirror_counterexample :
    Reachable (fun _ => 0)
        (setDirection (init 2 2 4 200 { trace := [], reads := 0 }).1
          MotorDirection.COUNTER_CLOCKWISE (init 2 2 4 200 { trace := [], reads := 0 }).2).1
        (setDirection (init 2 2 4 200 { trace := [], reads := 0 }).1
          MotorDirection.COUNTER_CLOCKWISE (init 2 2 4 200 { trace := [], reads := 0 }).2).2 ∧
      lastWrite 2
        (setDirection (init 2 2 4 200 { trace := [], reads := 0 }).1
          MotorDirection.COUNTER_CLOCKWISE (init 2 2 4 200 { trace := [], reads := 0 }).2).2.trace =
        some Level.LOW ∧
      getEnabled
        (setDirection (init 2 2 4 200 { trace := [], reads := 0 }).1
          MotorDirection.COUNTER_CLOCKWISE (init 2 2 4 200 { trace := [], reads := 0 }).2).1 =
        false :=
  ⟨Reachable.afterSetDirection MotorDirection.COUNTER_CLOCKWISE
      (Reachable.constructed 2 2 4 200 { trace := [], reads := 0 }),
    by decide, rfl⟩

/-- C14 (the enable flag mirrors the enable line), amended. For a motor whose
enable pin is neither its direction pin nor its pulse pin, in every state
reachable from the constructor by `setEnabled`, `setDirection`,
`setTargetSpeed` and `moveSteps` calls, the last level written to the enable
pin is LOW if and only if `getEnabled()` returns true. And directly after any
construction `getEnabled()` is false and the last level written to the enable
pin is HIGH. -/
theorem C14_enable_mirror (clock : Nat → Nat) (m : StepperMotor) (b : Board)
    (h : Reachable clock m b) (hd : m.driver.ENABLE_PIN ≠ m.driver.DIR_PIN)
    (hp : m.driver.ENABLE_PIN ≠ m.driver.PULSE_PIN) :
    (lastWrite m.driver.ENABLE_PIN b.trace = some Level.LOW ↔ getEnabled m = true) ∧
      (lastWrite m.driver.ENABLE_PIN b.trace = some Level.HIGH ↔ getEnabled m = false) ∧
      (∀ (enablePin dirPin pulsePin stepsPerRevolution : Int) (b0 : Board),
        getEnabled (init enablePin dirPin pulsePin stepsPerRevolution b0).1 = false ∧
          lastWrite enablePin (init enablePin dirPin pulsePin stepsPerRevolution b0).2.trace =
            some Level.HIGH) := by
  have hl := reachable_enable_line clock m b h hd hp
  refine ⟨?_, ?_, ?_⟩
  · rw [hl]
    unfold getEnabled
    cases m.isEnabled <;> simp
  · rw [hl]
    unfold getEnabled
    cases m.isEnabled <;> simp
  · intro enablePin dirPin pulsePin spr b0
    refine ⟨rfl, ?_⟩
    show lastWrite enablePin (b0.trace ++ _ ++ _ ++ _ ++ _ ++ _ ++
      [Event.digitalWrite enablePin Level.HIGH]) = _
    rw [lastWrite_append_digitalWrite, if_pos rfl]

/-- C14 for the motor on pins 2, 3, 4 after `setEnabled(true)`: the enable pin
was last written LOW and `getEnabled()` is true. -/
theorem C14_enable_mirror_witness :
    lastWrite 2 (setEnabled (init 2 3 4 200 { trace := [], reads := 0 }).1 true
        (init 2 3 4 200 { trace := [], reads := 0 }).2).2.trace = some Level.LOW ∧
      getEnabled (setEnabled (init 2 3 4 200 { trace := [], reads := 0 }).1 true
        (init 2 3 4 200 { trace := [], reads := 0 }).2).1 = true :=
  ⟨((C14_enable_mirror (fun _ => 0) _ _
      (Reachable.afterSetEnabled true
        (Reachable.constructed 2 3 4 200 { trace := [], reads := 0 }))
      (by decide) (by decide)).1).mpr rfl, rfl⟩

end StepperMotor

/-! ## Lemmas: rounding -/

/-- The nearest integer is at most one half away. -/
theorem roundNearestEven_error (y : ℚ) : |(roundNearestEven y : ℚ) - y| ≤ 1 / 2 := by
  have h1 : (⌊y⌋ : ℚ) ≤ y := Int.floor_le y
  have h2 : y < ⌊y⌋ + 1 := Int.lt_floor_add_one y
  unfold roundNearestEven
  rw [abs_le]
  split_ifs with a b c
  · constructor <;> linarith
  · push_cast
    constructor <;> linarith
  · constructor <;> linarith
  · push_cast
    constructor <;> linarith

/-- An integer less than one half away is the nearest integer. -/
theorem roundNearestEven_eq (y : ℚ) (n : Int) (h : |y - n| < 1 / 2) : roundNearestEven y = n := by
  rw [abs_lt] at h
  obtain ⟨h1, h2⟩ := h
  unfold roundNearestEven
  by_cases hn : (n : ℚ) ≤ y
  · have hf : ⌊y⌋ = n := by
      rw [Int.floor_eq_iff]
      constructor <;> linarith
    rw [hf, if_pos (by linarith)]
  · have hf : ⌊y⌋ = n - 1 := by
      rw [Int.floor_eq_iff]
      push_cast
      constructor <;> linarith
    rw [hf]
    push_cast
    rw [if_neg (by linarith), if_pos (by linarith)]
    ring

/-- The binary exponent of a positive rational. -/
theorem log_two_eq (x : ℚ) (L : Int) (h1 : (2 : ℚ) ^ L ≤ x) (h2 : x < (2 : ℚ) ^ (L + 1)) :
    Int.log 2 x = L := by
  have hpos : 0 < x := lt_of_lt_of_le (zpow_pos (by norm_num) L) h1
  have a : L ≤ Int.log 2 x := (Int.zpow_le_iff_le_log (by norm_num) hpos).mp (by exact_mod_cast h1)
  have b : Int.log 2 x < L + 1 := (Int.lt_zpow_iff_log_lt (by norm_num) hpos).mp (by exact_mod_cast h2)
  omega

/-- The value of `roundTo` from the binary exponent and the nearest integer. -/
theorem roundTo_eq (p : Nat) (x : ℚ) (L n : Int) (hx : x ≠ 0)
    (h1 : (2 : ℚ) ^ L ≤ |x|) (h2 : |x| < (2 : ℚ) ^ (L + 1))
    (hn : |x * 2 ^ (p - 1) / 2 ^ L - n| < 1 / 2) :
    roundTo p x = (n : ℚ) * 2 ^ L / 2 ^ (p - 1) := by
  unfold roundTo
  rw [if_neg hx, log_two_eq |x| L h1 h2, roundNearestEven_eq _ n hn]

/-- Round-to-nearest with at least 24 significant bits is accurate. -/
theorem roundTo_accurate (p : Nat) (hp : 24 ≤ p) : Accurate (roundTo p) := by
  intro x hlo _
  have hx : x ≠ 0 := by
    intro h
    rw [h, abs_zero] at hlo
    norm_num at hlo
  have hpos : 0 < |x| := abs_pos.mpr hx
  have hE : (0 : ℚ) < 2 ^ Int.log 2 |x| := zpow_pos (by norm_num) _
  have hEle : (2 : ℚ) ^ Int.log 2 |x| ≤ |x| := by
    have := Int.zpow_log_le_self (b := 2) (r := |x|) (by norm_num) hpos
    exact_mod_cast this
  have hP : (0 : ℚ) < 2 ^ (p - 1) := pow_pos (by norm_num) _
  have hP24 : (8388608 : ℚ) ≤ 2 ^ (p - 1) := by
    have : (2 : ℚ) ^ 23 ≤ 2 ^ (p - 1) := pow_le_pow_right₀ (by norm_num) (by omega)
    norm_num at this
    exact this
  have herr := roundNearestEven_error (x * 2 ^ (p - 1) / 2 ^ Int.log 2 |x|)
  unfold roundTo
  rw [if_neg hx]
  generalize (roundNearestEven (x * 2 ^ (p - 1) / 2 ^ Int.log 2 |x|) : ℚ) = r at herr
  generalize (2 : ℚ) ^ Int.log 2 |x| = E at hE hEle herr
  generalize (2 : ℚ) ^ (p - 1) = P at hP hP24 herr
  have e : r * E / P - x = (r - x * P / E) * (E / P) := by
    field_simp
    ring
  rw [e, abs_mul, abs_of_pos (div_pos hE hP)]
  have hEP : E / P ≤ |x| / 8388608 := by
    rw [div_le_div_iff₀ hP (by norm_num)]
    nlinarith
  calc |r - x * P / E| * (E / P) ≤ 1 / 2 * (E / P) :=
        mul_le_mul_of_nonneg_right herr (le_of_lt (div_pos hE hP))
    _ ≤ 1 / 2 * (|x| / 8388608) := by linarith
    _ = |x| / 16777216 := by ring

/-! ## Lemmas: the rounded model of the motor -/

namespace StepperMotor

/-- Without rounding, `adaptSpeedFl` is `adaptSpeed`. -/
theorem adaptSpeedFl_exact (m : StepperMotor) : adaptSpeedFl (fun x => x) m = adaptSpeed m :=
  rfl

/-- Without rounding, `moveStepsFl` is `moveSteps`. -/
theorem moveStepsFl_exact (clock : Nat → Nat) (numberSteps : Int) (m : StepperMotor)
    (b : Board) : moveStepsFl (fun x => x) clock numberSteps m b = moveSteps clock numberSteps m b :=
  rfl

/-- A rounded ramp tick changes nothing but the current speed. -/
theorem adaptSpeedFl_frame (fl : ℚ → ℚ) (m : StepperMotor) :
    (adaptSpeedFl fl m).driver = m.driver ∧ (adaptSpeedFl fl m).isEnabled = m.isEnabled ∧
      (adaptSpeedFl fl m).STEPS_PER_REV = m.STEPS_PER_REV ∧
      (adaptSpeedFl fl m).targetSpeedRevsPerSec = m.targetSpeedRevsPerSec := by
  unfold adaptSpeedFl
  by_cases h : arduinoAbs (fl (m.targetSpeedRevsPerSec - m.speedRevsPerSec)) < 1 / 4
  · simp only [h, if_true, and_self]
  · simp only [h, if_false, and_self]

/-- The current speed after a rounded ramp tick that snaps. -/
theorem adaptSpeedFl_snap (fl : ℚ → ℚ) (m : StepperMotor)
    (h : |fl (m.targetSpeedRevsPerSec - m.speedRevsPerSec)| < 1 / 4) :
    (adaptSpeedFl fl m).speedRevsPerSec = m.targetSpeedRevsPerSec := by
  unfold adaptSpeedFl
  simp only [arduinoAbs_eq, h, if_true]

/-- The current speed after a rounded ramp tick that does not snap. -/
theorem adaptSpeedFl_step (fl : ℚ → ℚ) (m : StepperMotor)
    (h : ¬ |fl (m.targetSpeedRevsPerSec - m.speedRevsPerSec)| < 1 / 4) :
    (adaptSpeedFl fl m).speedRevsPerSec =
      fl (m.speedRevsPerSec + fl (fl (m.targetSpeedRevsPerSec - m.speedRevsPerSec) / 5)) := by
  unfold adaptSpeedFl
  simp only [arduinoAbs_eq, h, if_false]

/-- The result of the rounded `moveSteps` on the branch that does not move. -/
theorem moveStepsFl_slow (fl : ℚ → ℚ) (clock : Nat → Nat) (numberSteps : Int)
    (m : StepperMotor) (b : Board) (h : (adaptSpeedFl fl m).speedRevsPerSec ≤ 1 / 2) :
    moveStepsFl fl clock numberSteps m b = some (0, adaptSpeedFl fl m, b) := by
  unfold moveStepsFl
  simp only [not_lt.mpr h, if_false]

/-- The result of the rounded `moveSteps` on the branch that moves, when the
number of steps per second is a non-zero `unsigned long`. -/
theorem moveStepsFl_fast (fl : ℚ → ℚ) (clock : Nat → Nat) (numberSteps : Int)
    (m : StepperMotor) (b : Board) (k : Nat) (h : (adaptSpeedFl fl m).speedRevsPerSec > 1 / 2)
    (hk : truncToULong
      (fl ((adaptSpeedFl fl m).speedRevsPerSec * (adaptSpeedFl fl m).STEPS_PER_REV)) = some k)
    (hk0 : k ≠ 0) :
    moveStepsFl fl clock numberSteps m b =
      some (numberSteps, adaptSpeedFl fl m,
        (m.driver.moveStep clock (toInt (1000000 / k)))^[numberSteps.toNat] b) := by
  unfold moveStepsFl
  simp only [h, if_true, hk, hk0, if_false]
  rw [moveStepsLoop_eq clock _ _ numberSteps (numberSteps.toNat + 1) 0 b (by omega)]
  simp only [sub_zero, (adaptSpeedFl_frame fl m).1]

/-- One rounded ramp tick towards the target 1 from a speed within `2e-6` of
`a`, for `0 ≤ a ≤ 0.7`: the tick does not snap and the new speed is within
`2e-6` of `a + (1 - a) / 5`. -/
theorem adaptSpeedFl_near (fl : ℚ → ℚ) (hfl : Accurate fl) (m : StepperMotor) (a : ℚ)
    (hT : m.targetSpeedRevsPerSec = 1) (ha0 : 0 ≤ a) (ha1 : a ≤ 7 / 10)
    (hc : |m.speedRevsPerSec - a| ≤ 1 / 500000) :
    |(adaptSpeedFl fl m).speedRevsPerSec - (a + (1 - a) / 5)| ≤ 1 / 500000 := by
  rw [abs_le] at hc
  obtain ⟨hc1, hc2⟩ := hc
  have hx1pos : 0 < 1 - m.speedRevsPerSec := by linarith
  have h1 := hfl (1 - m.speedRevsPerSec) (by rw [abs_of_pos hx1pos]; linarith)
    (by rw [abs_of_pos hx1pos]; linarith)
  rw [abs_of_pos hx1pos, abs_le] at h1
  obtain ⟨h1a, h1b⟩ := h1
  have hgap : ¬ |fl (m.targetSpeedRevsPerSec - m.speedRevsPerSec)| < 1 / 4 := by
    rw [hT, not_lt]
    have : (1 : ℚ) / 4 ≤ fl (1 - m.speedRevsPerSec) := by linarith
    exact le_trans this (le_abs_self _)
  rw [adaptSpeedFl_step fl m hgap, hT]
  generalize fl (1 - m.speedRevsPerSec) = d at h1a h1b
  have hx2pos : 0 < d / 5 := by linarith
  have h2 := hfl (d / 5) (by rw [abs_of_pos hx2pos]; linarith)
    (by rw [abs_of_pos hx2pos]; linarith)
  rw [abs_of_pos hx2pos, abs_le] at h2
  obtain ⟨h2a, h2b⟩ := h2
  generalize fl (d / 5) = q at h2a h2b
  have hx3pos : 0 < m.speedRevsPerSec + q := by linarith
  have h3 := hfl (m.speedRevsPerSec + q) (by rw [abs_of_pos hx3pos]; linarith)
    (by rw [abs_of_pos hx3pos]; linarith)
  rw [abs_of_pos hx3pos, abs_le] at h3
  obtain ⟨h3a, h3b⟩ := h3
  generalize fl (m.speedRevsPerSec + q) = c1 at h3a h3b
  rw [abs_le]
  constructor <;> linarith

end StepperMotor

/-! ## Claims about the pulse duration and the start-up trace -/

namespace StepperMotor

/-- The value 1 is a floating-point number. -/
theorem roundTo_one_53 : roundTo 53 1 = 1 := by
  rw [roundTo_eq 53 1 0 4503599627370496 (by norm_num) (by norm_num) (by norm_num)
    (by norm_num)]
  norm_num

/-- The binary64 number nearest to 1/5. -/
theorem roundTo_fifth_53 : roundTo 53 (1 / 5) = 3602879701896397 / 18014398509481984 := by
  rw [roundTo_eq 53 (1 / 5) (-3) 7205759403792794 (by norm_num) (by norm_num [abs_of_pos])
    (by norm_num [abs_of_pos]) (by norm_num [abs_lt])]
  norm_num

/-- The binary64 number nearest to 1/5 is a binary64 number. -/
theorem roundTo_fifth_fixed_53 :
    roundTo 53 (3602879701896397 / 18014398509481984) =
      3602879701896397 / 18014398509481984 := by
  rw [roundTo_eq 53 _ (-3) 7205759403792794 (by norm_num) (by norm_num [abs_of_pos])
    (by norm_num [abs_of_pos]) (by norm_num)]
  norm_num

/-- The value 37.5 is a binary64 number. -/
theorem roundTo_product_53 : roundTo 53 (75 / 2) = 75 / 2 := by
  rw [roundTo_eq 53 _ 5 5277655813324800 (by norm_num) (by norm_num [abs_of_pos])
    (by norm_num [abs_of_pos]) (by norm_num)]
  norm_num

/-- The value 1 is a binary32 number. -/
theorem roundTo_one_24 : roundTo 24 1 = 1 := by
  rw [roundTo_eq 24 1 0 8388608 (by norm_num) (by norm_num) (by norm_num) (by norm_num)]
  norm_num

/-- The binary32 number nearest to 1/5. -/
theorem roundTo_fifth_24 : roundTo 24 (1 / 5) = 13421773 / 67108864 := by
  rw [roundTo_eq 24 (1 / 5) (-3) 13421773 (by norm_num) (by norm_num [abs_of_pos])
    (by norm_num [abs_of_pos]) (by norm_num [abs_lt])]
  norm_num

/-- The binary32 number nearest to 1/5 is a binary32 number. -/
theorem roundTo_fifth_fixed_24 : roundTo 24 (13421773 / 67108864) = 13421773 / 67108864 := by
  rw [roundTo_eq 24 _ (-3) 13421773 (by norm_num) (by norm_num [abs_of_pos])
    (by norm_num [abs_of_pos]) (by norm_num)]
  norm_num

/-- The value 37.5 is a binary32 number. -/
theorem roundTo_product_24 : roundTo 24 (75 / 2) = 75 / 2 := by
  rw [roundTo_eq 24 _ 5 9830400 (by norm_num) (by norm_num [abs_of_pos])
    (by norm_num [abs_of_pos]) (by norm_num)]
  norm_num

/-- A motor with 50 steps per revolution that runs at its target 0.75, for a
rounding that keeps 0 and 37.5: the post-ramp speed is 0.75, the number of
steps per second is 37 and every step gets `1000000 / 37 = 27027`
microseconds. -/
theorem moveStepsFl_three_quarters (fl : ℚ → ℚ) (h0 : fl 0 = 0) (h1 : fl (75 / 2) = 75 / 2)
    (clock : Nat → Nat) (numberSteps : Int) (b : Board) :
    (adaptSpeedFl fl (motorAt 50 (3 / 4) (3 / 4))).speedRevsPerSec = 3 / 4 ∧
      moveStepsFl fl clock numberSteps (motorAt 50 (3 / 4) (3 / 4)) b =
        some (numberSteps, adaptSpeedFl fl (motorAt 50 (3 / 4) (3 / 4)),
          ((motorAt 50 (3 / 4) (3 / 4)).driver.moveStep clock 27027)^[numberSteps.toNat] b) := by
  have hs : (adaptSpeedFl fl (motorAt 50 (3 / 4) (3 / 4))).speedRevsPerSec = 3 / 4 := by
    rw [adaptSpeedFl_snap fl _ (by simp only [motorAt, sub_self, h0]; norm_num)]
    rfl
  have hgt : (adaptSpeedFl fl (motorAt 50 (3 / 4) (3 / 4))).speedRevsPerSec > 1 / 2 := by
    rw [hs]
    norm_num
  have hx : (3 / 4 : ℚ) * ((motorAt 50 (3 / 4) (3 / 4)).STEPS_PER_REV : ℚ) = 75 / 2 := by
    simp only [motorAt]
    norm_num
  have hfl : ⌊(75 / 2 : ℚ)⌋ = 37 := by
    rw [Int.floor_eq_iff]
    norm_num
  have hk : truncToULong (fl ((adaptSpeedFl fl (motorAt 50 (3 / 4) (3 / 4))).speedRevsPerSec *
      (adaptSpeedFl fl (motorAt 50 (3 / 4) (3 / 4))).STEPS_PER_REV)) = some 37 := by
    rw [hs, (adaptSpeedFl_frame fl _).2.2.1, hx, h1,
      truncToULong_of_nonneg _ (by norm_num) (by rw [hfl]; norm_num), hfl]
    rfl
  refine ⟨hs, ?_⟩
  rw [moveStepsFl_fast fl clock numberSteps _ b 37 hgt hk (by decide)]
  rfl

/-- C7, as stated, fails: for a motor with 50 steps per revolution that runs at
its target 0.75 (every value involved is a binary floating-point number, so
neither binary64 nor binary32 rounding changes anything), `moveSteps(1)`
passes `1000000 / 37 = 27027` microseconds to `moveStep`, while
`1,000,000 / (0.75 * 50)` rounded down is 26666; both fit an `int`, and the
two durations give different pulses. -/
theorem C7_pulse_duration_counterexample :
    moveStepsFl (roundTo 53) (fun _ => 0) 1 (motorAt 50 (3 / 4) (3 / 4))
        { trace := [], reads := 0 } =
      some (1, adaptSpeedFl (roundTo 53) (motorAt 50 (3 / 4) (3 / 4)),
        StepperDriver.moveStep (fun _ => 0) (motorAt 50 (3 / 4) (3 / 4)).driver 27027
          { trace := [], reads := 0 }) ∧
      ⌊(1000000 : ℚ) /
        ((adaptSpeedFl (roundTo 53) (motorAt 50 (3 / 4) (3 / 4))).speedRevsPerSec * 50)⌋ = 26666 ∧
      StepperDriver.moveStep (fun _ => 0) (motorAt 50 (3 / 4) (3 / 4)).driver 27027
          { trace := [], reads := 0 } ≠
        StepperDriver.moveStep (fun _ => 0) (motorAt 50 (3 / 4) (3 / 4)).driver 26666
          { trace := [], reads := 0 } ∧
      moveStepsFl (roundTo 24) (fun _ => 0) 1 (motorAt 50 (3 / 4) (3 / 4))
          { trace := [], reads := 0 } =
        some (1, adaptSpeedFl (roundTo 24) (motorAt 50 (3 / 4) (3 / 4)),
          StepperDriver.moveStep (fun _ => 0) (motorAt 50 (3 / 4) (3 / 4)).driver 27027
            { trace := [], reads := 0 }) ∧
      (adaptSpeedFl (roundTo 24) (motorAt 50 (3 / 4) (3 / 4))).speedRevsPerSec = 3 / 4 := by
  have h := moveStepsFl_three_quarters (roundTo 53) (by simp [roundTo]) roundTo_product_53
    (fun _ => 0) 1 { trace := [], reads := 0 }
  have h24 := moveStepsFl_three_quarters (roundTo 24) (by simp [roundTo]) roundTo_product_24
    (fun _ => 0) 1 { trace := [], reads := 0 }
  refine ⟨h.2, ?_, by decide, h24.2, h24.1⟩
  rw [h.1, Int.floor_eq_iff]
  norm_num

/-- C7 (per-step pulse duration), amended. Whatever the rounding `fl` of
`double` arithmetic: whenever the post-ramp speed `s` is above 0.5 and the
whole number of steps per second, the rounded product `s * STEPS_PER_REV` with
its fraction dropped, is at least 1 and an `unsigned long`, and the quotient
fits the 16-bit `int` parameter of `moveStep`, every `moveStep` call of the
invocation gets the duration `1000000 / ⌊fl (s * STEPS_PER_REV)⌋` (integer
division): the product is cut to a whole number before the division. -/
theorem C7_pulse_duration (fl : ℚ → ℚ) (clock : Nat → Nat) (m : StepperMotor) (b : Board)
    (numberSteps : Int)
    (hs : (adaptSpeedFl fl m).speedRevsPerSec > 1 / 2)
    (h1 : 1 ≤ ⌊fl ((adaptSpeedFl fl m).speedRevsPerSec * m.STEPS_PER_REV)⌋)
    (h32 : ⌊fl ((adaptSpeedFl fl m).speedRevsPerSec * m.STEPS_PER_REV)⌋ < 4294967296)
    (hfit : 1000000 / ⌊fl ((adaptSpeedFl fl m).speedRevsPerSec * m.STEPS_PER_REV)⌋ < 32768) :
    moveStepsFl fl clock numberSteps m b =
      some (numberSteps, adaptSpeedFl fl m,
        (m.driver.moveStep clock
          (1000000 / ⌊fl ((adaptSpeedFl fl m).speedRevsPerSec * m.STEPS_PER_REV)⌋))^[
            numberSteps.toNat] b) := by
  have hx0 : 0 ≤ fl ((adaptSpeedFl fl m).speedRevsPerSec * m.STEPS_PER_REV) :=
    Int.floor_nonneg.mp (le_trans (by decide : (0 : Int) ≤ 1) h1)
  have hk : truncToULong
      (fl ((adaptSpeedFl fl m).speedRevsPerSec * (adaptSpeedFl fl m).STEPS_PER_REV)) =
      some ⌊fl ((adaptSpeedFl fl m).speedRevsPerSec * m.STEPS_PER_REV)⌋.toNat := by
    rw [(adaptSpeedFl_frame fl m).2.2.1]
    exact truncToULong_of_nonneg _ hx0 h32
  generalize ⌊fl ((adaptSpeedFl fl m).speedRevsPerSec * m.STEPS_PER_REV)⌋ = z at h1 h32 hfit hk
  rw [moveStepsFl_fast fl clock numberSteps m b z.toNat hs hk (by omega)]
  have hz : ((z.toNat : Nat) : Int) = z := Int.toNat_of_nonneg (by omega)
  have hq : ((1000000 / z.toNat : Nat) : Int) = 1000000 / z := by
    rw [Int.natCast_div, hz]
    rfl
  have hto : toInt (1000000 / z.toNat) = 1000000 / z := by
    rw [← hq] at hfit ⊢
    generalize 1000000 / z.toNat = q at hfit
    unfold toInt
    omega
  rw [hto]

/-- C7 with binary64 rounding, for a motor with 50 steps per revolution that
runs at its target 0.75, with three steps: every step gets 27027
microseconds. -/
theorem C7_pulse_duration_witness :
    moveStepsFl (roundTo 53) (fun _ => 0) 3 (motorAt 50 (3 / 4) (3 / 4))
        { trace := [], reads := 0 } =
      some (3, adaptSpeedFl (roundTo 53) (motorAt 50 (3 / 4) (3 / 4)),
        ((motorAt 50 (3 / 4) (3 / 4)).driver.moveStep (fun _ => 0) 27027)^[3]
          { trace := [], reads := 0 }) := by
  have hs := (moveStepsFl_three_quarters (roundTo 53) (by simp [roundTo]) roundTo_product_53
    (fun _ => 0) 3 { trace := [], reads := 0 }).1
  have hfl : ⌊roundTo 53 ((adaptSpeedFl (roundTo 53) (motorAt 50 (3 / 4) (3 / 4))).speedRevsPerSec *
      ((motorAt 50 (3 / 4) (3 / 4)).STEPS_PER_REV : ℚ))⌋ = 37 := by
    have hx : (3 / 4 : ℚ) * ((motorAt 50 (3 / 4) (3 / 4)).STEPS_PER_REV : ℚ) = 75 / 2 := by
      simp only [motorAt]
      norm_num
    rw [hs, hx, roundTo_product_53, Int.floor_eq_iff]
    norm_num
  have h := C7_pulse_duration (roundTo 53) (fun _ => 0) (motorAt 50 (3 / 4) (3 / 4))
    { trace := [], reads := 0 } 3 (by rw [hs]; norm_num) (by rw [hfl]; decide)
    (by rw [hfl]; decide) (by rw [hfl]; decide)
  rw [hfl] at h
  exact h

end StepperMotor

namespace StepperMotor

/-- C12, as stated, fails: with binary64 rounding the speed after the first
tick from 0 towards 1 is the binary64 number nearest to 0.2,
`3602879701896397 / 2^54`, and with binary32 rounding it is the binary32
number nearest to 0.2, `13421773 / 2^26`; neither is 1/5. -/
theorem C12_start_up_trace_counterexample :
    (adaptSpeedFl (roundTo 53) (motorAt 200 0 1)).speedRevsPerSec =
        3602879701896397 / 18014398509481984 ∧
      (3602879701896397 / 18014398509481984 : ℚ) ≠ 1 / 5 ∧
      (adaptSpeedFl (roundTo 24) (motorAt 200 0 1)).speedRevsPerSec = 13421773 / 67108864 ∧
      (13421773 / 67108864 : ℚ) ≠ 1 / 5 := by
  refine ⟨?_, by norm_num, ?_, by norm_num⟩
  · rw [adaptSpeedFl_step (roundTo 53) _
      (by simp only [motorAt, sub_zero, roundTo_one_53]; norm_num)]
    simp only [motorAt, sub_zero, zero_add, roundTo_one_53, roundTo_fifth_53,
      roundTo_fifth_fixed_53]
  · rw [adaptSpeedFl_step (roundTo 24) _
      (by simp only [motorAt, sub_zero, roundTo_one_24]; norm_num)]
    simp only [motorAt, sub_zero, zero_add, roundTo_one_24, roundTo_fifth_24,
      roundTo_fifth_fixed_24]

/-- C12 (start-up trace), amended. For a motor with `STEPS_PER_REV = 200`,
current speed 0 and target speed 1, any `n ≥ 1`, and any rounding of `double`
arithmetic that is accurate to one part in `2^24`: the first three
`moveSteps(n)` calls return 0 and leave the board untouched, with post-tick
speeds within `2e-6` of 1/5, 9/25 and 61/125; the fourth call returns `n`,
makes exactly `n` `moveStep` calls (`n` pulses, each of 8474 microseconds) and
has a post-tick speed within `2e-6` of 369/625; the speed after the fifth tick
is within `2e-6` of 2101/3125 = 0.67232. -/
theorem C12_start_up_trace (fl : ℚ → ℚ) (hfl : Accurate fl) (clock : Nat → Nat)
    (m : StepperMotor) (b : Board) (n : Int)
    (hspr : m.STEPS_PER_REV = 200) (hc : m.speedRevsPerSec = 0)
    (hT : m.targetSpeedRevsPerSec = 1) (hn : 1 ≤ n) :
    moveStepsFl fl clock n m b = some (0, adaptSpeedFl fl m, b) ∧
      |(adaptSpeedFl fl m).speedRevsPerSec - 1 / 5| ≤ 1 / 500000 ∧
      moveStepsFl fl clock n (adaptSpeedFl fl m) b = some (0, (adaptSpeedFl fl)^[2] m, b) ∧
      |((adaptSpeedFl fl)^[2] m).speedRevsPerSec - 9 / 25| ≤ 1 / 500000 ∧
      moveStepsFl fl clock n ((adaptSpeedFl fl)^[2] m) b =
        some (0, (adaptSpeedFl fl)^[3] m, b) ∧
      |((adaptSpeedFl fl)^[3] m).speedRevsPerSec - 61 / 125| ≤ 1 / 500000 ∧
      moveStepsFl fl clock n ((adaptSpeedFl fl)^[3] m) b =
        some (n, (adaptSpeedFl fl)^[4] m, (m.driver.moveStep clock 8474)^[n.toNat] b) ∧
      |((adaptSpeedFl fl)^[4] m).speedRevsPerSec - 369 / 625| ≤ 1 / 500000 ∧
      (((m.driver.moveStep clock 8474)^[n.toNat] b).pulses m.driver.PULSE_PIN : Int) =
        b.pulses m.driver.PULSE_PIN + n ∧
      |((adaptSpeedFl fl)^[5] m).speedRevsPerSec - 2101 / 3125| ≤ 1 / 500000 := by
  have t1 : (adaptSpeedFl fl m).targetSpeedRevsPerSec = 1 := by
    rw [(adaptSpeedFl_frame fl m).2.2.2, hT]
  have t2 : (adaptSpeedFl fl (adaptSpeedFl fl m)).targetSpeedRevsPerSec = 1 := by
    rw [(adaptSpeedFl_frame fl _).2.2.2, t1]
  have t3 : (adaptSpeedFl fl (adaptSpeedFl fl (adaptSpeedFl fl m))).targetSpeedRevsPerSec = 1 := by
    rw [(adaptSpeedFl_frame fl _).2.2.2, t2]
  have t4 : (adaptSpeedFl fl (adaptSpeedFl fl (adaptSpeedFl fl
      (adaptSpeedFl fl m)))).targetSpeedRevsPerSec = 1 := by
    rw [(adaptSpeedFl_frame fl _).2.2.2, t3]
  have h1 : |(adaptSpeedFl fl m).speedRevsPerSec - 1 / 5| ≤ 1 / 500000 := by
    have := adaptSpeedFl_near fl hfl m 0 hT (by norm_num) (by norm_num)
      (by rw [hc]; norm_num)
    norm_num at this
    exact this
  have h2 : |(adaptSpeedFl fl (adaptSpeedFl fl m)).speedRevsPerSec - 9 / 25| ≤ 1 / 500000 := by
    have := adaptSpeedFl_near fl hfl _ (1 / 5) t1 (by norm_num) (by norm_num) h1
    norm_num at this
    exact this
  have h3 : |(adaptSpeedFl fl (adaptSpeedFl fl (adaptSpeedFl fl m))).speedRevsPerSec -
      61 / 125| ≤ 1 / 500000 := by
    have := adaptSpeedFl_near fl hfl _ (9 / 25) t2 (by norm_num) (by norm_num) h2
    norm_num at this
    exact this
  have h4 : |(adaptSpeedFl fl (adaptSpeedFl fl (adaptSpeedFl fl
      (adaptSpeedFl fl m)))).speedRevsPerSec - 369 / 625| ≤ 1 / 500000 := by
    have := adaptSpeedFl_near fl hfl _ (61 / 125) t3 (by norm_num) (by norm_num) h3
    norm_num at this
    exact this
  have h5 : |(adaptSpeedFl fl (adaptSpeedFl fl (adaptSpeedFl fl (adaptSpeedFl fl
      (adaptSpeedFl fl m))))).speedRevsPerSec - 2101 / 3125| ≤ 1 / 500000 := by
    have := adaptSpeedFl_near fl hfl _ (369 / 625) t4 (by norm_num) (by norm_num) h4
    norm_num at this
    exact this
  have s4 : (adaptSpeedFl fl (adaptSpeedFl fl (adaptSpeedFl fl
      (adaptSpeedFl fl m)))).STEPS_PER_REV = 200 := by
    rw [(adaptSpeedFl_frame fl _).2.2.1, (adaptSpeedFl_frame fl _).2.2.1,
      (adaptSpeedFl_frame fl _).2.2.1, (adaptSpeedFl_frame fl _).2.2.1, hspr]
  have d3 : (adaptSpeedFl fl (adaptSpeedFl fl (adaptSpeedFl fl m))).driver = m.driver := by
    rw [(adaptSpeedFl_frame fl _).1, (adaptSpeedFl_frame fl _).1, (adaptSpeedFl_frame fl _).1]
  have b1 := abs_le.mp h1
  have b2 := abs_le.mp h2
  have b3 := abs_le.mp h3
  have b4 := abs_le.mp h4
  have hgt : (adaptSpeedFl fl (adaptSpeedFl fl (adaptSpeedFl fl
      (adaptSpeedFl fl m)))).speedRevsPerSec > 1 / 2 := by
    linarith [b4.1]
  have hk : truncToULong
      (fl ((adaptSpeedFl fl (adaptSpeedFl fl (adaptSpeedFl fl
          (adaptSpeedFl fl m)))).speedRevsPerSec *
        (adaptSpeedFl fl (adaptSpeedFl fl (adaptSpeedFl fl
          (adaptSpeedFl fl m)))).STEPS_PER_REV)) = some 118 := by
    rw [s4]
    generalize (adaptSpeedFl fl (adaptSpeedFl fl (adaptSpeedFl fl
      (adaptSpeedFl fl m)))).speedRevsPerSec = c at b4
    have hxpos : 0 < c * ((200 : Int) : ℚ) := by
      push_cast
      linarith [b4.1]
    have hx := hfl (c * ((200 : Int) : ℚ))
      (by rw [abs_of_pos hxpos]; push_cast; linarith [b4.1])
      (by rw [abs_of_pos hxpos]; push_cast; linarith [b4.2])
    rw [abs_of_pos hxpos, abs_le] at hx
    push_cast at hx
    have hfloor : ⌊fl (c * ((200 : Int) : ℚ))⌋ = 118 := by
      rw [Int.floor_eq_iff]
      push_cast
      constructor <;> linarith [b4.1, b4.2, hx.1, hx.2]
    rw [truncToULong_of_nonneg _ (by push_cast; linarith [b4.1, hx.1])
      (by rw [hfloor]; norm_num), hfloor]
    rfl
  have hfast := moveStepsFl_fast fl clock n
    (adaptSpeedFl fl (adaptSpeedFl fl (adaptSpeedFl fl m))) b 118 hgt hk (by decide)
  rw [d3] at hfast
  refine ⟨moveStepsFl_slow fl clock n m b (by linarith [b1.2]), h1,
    moveStepsFl_slow fl clock n (adaptSpeedFl fl m) b (by linarith [b2.2]), h2,
    moveStepsFl_slow fl clock n (adaptSpeedFl fl (adaptSpeedFl fl m)) b (by linarith [b3.2]), h3,
    hfast, h4, ?_, h5⟩
  rw [StepperDriver.iterate_moveStep_pulses]
  omega

/-- C12 with binary64 rounding, for the motor the constructor makes with 200
steps per revolution, after `setTargetSpeed(1.0)`, with `n = 2`: the fourth
call returns 2 and makes two pulses of 8474 microseconds. -/
theorem C12_start_up_trace_witness :
    Accurate (roundTo 53) ∧ (1 : Int) ≤ 2 ∧
      moveStepsFl (roundTo 53) (fun _ => 0) 2
          ((adaptSpeedFl (roundTo 53))^[3]
            (setTargetSpeed (init 2 3 4 200 { trace := [], reads := 0 }).1 1))
          { trace := [], reads := 0 } =
        some (2,
          (adaptSpeedFl (roundTo 53))^[4]
            (setTargetSpeed (init 2 3 4 200 { trace := [], reads := 0 }).1 1),
          (StepperDriver.moveStep (fun _ => 0)
            { ENABLE_PIN := 2, DIR_PIN := 3, PULSE_PIN := 4 } 8474)^[2]
            { trace := [], reads := 0 }) :=
  ⟨roundTo_accurate 53 (by decide), by decide,
    (C12_start_up_trace (roundTo 53) (roundTo_accurate 53 (by decide)) (fun _ => 0)
      (setTargetSpeed (init 2 3 4 200 { trace := [], reads := 0 }).1 1)
      { trace := [], reads := 0 } 2 rfl rfl rfl (by decide)).2.2.2.2.2.2.1⟩

end StepperMotor
